import Mathlib

/-!
# c-lispexer: lexer, classifier, tree builder and evaluator

A shallow embedding of `src/main.c` (with the growable-array macros of
`src/libdyn.h`) and the properties of the specification checked against it.

Conventions of the embedding.

* A C buffer `(items, count)` is a `List Char`; each `Char` stands for one
  `char` of the buffer, and `count` is the length of the list.  Capacities and
  allocation are not modelled.
* A C string (`char *`, NUL terminated) is the `List Char` of the characters
  before its terminator.  `cstr` reads a buffer as a C string.
* `size_t` counters are `Nat` (the buffer would have to hold `2^64`
  characters for them to wrap).  `int` values are `Int`; arithmetic on them is
  reduced with `wrap_int` (two's complement, 32 bits), and the `size_t`
  accumulator of the evaluator is reduced modulo `2^64`.
* A tagged C union is a Lean sum type: `Token` is the pair `(kind, data)` of
  `LToken`, `AObj` the pair `(kind, as)`.
* Where the C code has no defined result (control leaves `traverse_ast_rec`
  without a `return`, a write lands outside an allocation), the model returns
  `none`.
-/

namespace CLispexer

/-! ## Characters and strings -/

/-- The terminator of a C string. -/
def NUL : Char := Char.ofNat 0

/-- A buffer read as a C string: the characters before the first NUL. -/
def cstr : List Char → List Char
  | [] => []
  | c :: rest => if c = NUL then [] else c :: cstr rest

/-- `is_whitespace` (main.c 12-14). -/
def is_whitespace (ch : Char) : Bool :=
  ch == ' ' || ch == '\n' || ch == '\r'

/-- `is_numeric` (main.c 15-17): `ch > 47 && ch < 58`. -/
def is_numeric (ch : Char) : Bool :=
  decide (47 < ch.toNat) && decide (ch.toNat < 58)

/-- Two's complement reduction of an integer to the range of a 32-bit `int`. -/
def wrap_int (z : Int) : Int :=
  (z + 2147483648) % 4294967296 - 2147483648

/-- The addition `total += v` on the `size_t total` of the evaluator: the
`int` operand is converted to `size_t` and the sum is taken modulo `2^64`. -/
def size_t_add (total : Nat) (v : Int) : Nat :=
  (((total : Int) + v) % 18446744073709551616).toNat

/-! ## Lexer (main.c 19-126) -/

/-- The struct `Lispexer`.  `contents` holds the `count` characters of the
source buffer, `ds` the lexeme accumulator. -/
structure Lispexer where
  contents : List Char
  ds : List Char
  head : Nat
  pos_line : Nat
  pos_idx : Nat
  old_head : Nat
  old_pos_line : Nat
  old_pos_idx : Nat
deriving DecidableEq, Repr

/-- The field `count`: the number of characters of `contents`. -/
def Lispexer.count (l : Lispexer) : Nat := l.contents.length

/-- `lispexer_from_dstring` (main.c 32-42), followed by `vec_ptr_init(&l.ds)`. -/
def lispexer_from_dstring (dstr : List Char) : Lispexer :=
  { contents := dstr, ds := [], head := 0, pos_line := 0, pos_idx := 0,
    old_head := 0, old_pos_line := 0, old_pos_idx := 0 }

/-- `dstring_append` (libdyn.h 58-62) on the accumulator, without touching `head`. -/
def Lispexer.append (l : Lispexer) (ch : Char) : Lispexer :=
  { l with ds := l.ds ++ [ch] }

/-- The statement `l->head++`. -/
def Lispexer.advance (l : Lispexer) : Lispexer :=
  { l with head := l.head + 1 }

/-- The `for` loop of `lispexer_next` (main.c 56-123).  The first argument is
the unread part of the buffer, `contents[head .. count)`; the two flags are
the locals `in_string` and `escaping`.  Every `continue` and the fall through
at the end of the body run `l->head++` and go on with the rest of the buffer;
every `goto next` returns the state. -/
def lispexer_scan : List Char → Lispexer → Bool → Bool → Lispexer
  | [], l, _, _ => l
  | ch :: rest, l0, in_string, escaping =>
    let l := { l0 with pos_idx := l0.pos_idx + 1 }
    if ch = '\n' then
      lispexer_scan rest
        { l with pos_line := l.pos_line + 1, pos_idx := 0, head := l.head + 1 }
        in_string escaping
    else if escaping then
      lispexer_scan rest (l.append ch).advance in_string false
    else if in_string && ch == '\"' then
      (l.append ch).advance
    else if in_string && ch == '\\' then
      lispexer_scan rest (l.append ch).advance in_string true
    else if !in_string && ch == '\"' then
      if l.ds.length != 0 then l
      else lispexer_scan rest (l.append ch).advance true escaping
    else if !in_string && is_whitespace ch then
      if l.ds.length == 0 then lispexer_scan rest l.advance in_string escaping
      else l.advance
    else if !in_string && ch == '(' then
      if l.ds.length != 0 then { l with pos_idx := l.pos_idx - 1 }
      else (l.append ch).advance
    else if !in_string && ch == ')' then
      if l.ds.length != 0 then { l with pos_idx := l.pos_idx - 1 }
      else (l.append ch).advance
    else
      lispexer_scan rest (l.append ch).advance in_string escaping

/-- `lispexer_next` (main.c 49-126): clear the accumulator, save the position,
scan from `head`. -/
def lispexer_next (l : Lispexer) : Lispexer :=
  lispexer_scan (l.contents.drop l.head)
    { l with ds := [], old_head := l.head, old_pos_idx := l.pos_idx,
             old_pos_line := l.pos_line }
    false false

/-! ## Classifier (main.c 128-238) -/

/-- The enum `SyntaxKind`. -/
inductive SyntaxKind
  | SYNTAX_OPAREN
  | SYNTAX_CPAREN
deriving DecidableEq, Repr

/-- The `kind` of an `LToken` together with the member of `TokenData` that
is active for it. -/
inductive Token
  | TOKEN_INT (as_int : Int)
  | TOKEN_IDENT (as_ident : List Char)
  | TOKEN_STRING (as_string : List Char)
  | TOKEN_SYNTAX (as_syn : SyntaxKind)
  | TOKEN_MALFORMED
deriving DecidableEq, Repr

/-- The struct `LToken`. -/
structure LToken where
  tok : Token
  line : Nat
  idx : Nat
deriving DecidableEq, Repr

/-- The constant `LToken_malformed` (main.c 177-182). -/
def LToken_malformed : LToken :=
  { tok := Token.TOKEN_MALFORMED, line := 0, idx := 0 }

/-- The digit loop of the C library function `atoi`: the decimal value of the
leading run of digits, added to `acc`. -/
def atoi_digits : List Char → Nat → Nat
  | [], acc => acc
  | c :: rest, acc =>
    if is_numeric c then atoi_digits rest (acc * 10 + (c.toNat - 48)) else acc

/-- The C library function `atoi` on a text that starts with a digit (the
only call, main.c 206, is guarded by `is_numeric`): the value of the leading
digits when an `int` can hold it.  For a larger number the C standard fixes no
value; the call still returns an `int`, and the model takes the one of
`(int) strtol(s, NULL, 10)` with a 64-bit `long` (the definition of `atoi` in
the GNU C library): the number is clamped to `LONG_MAX` and converted to
`int`. -/
def atoi (s : List Char) : Int :=
  wrap_int ((min (atoi_digits s 0) 9223372036854775807 : Nat) : Int)

/-- `to_ltoken` (main.c 184-238).  For a string literal `strdup(ds->items + 1)`
copies the characters after the first up to the first NUL, and the store
`data.as_string[ds->count - 2] = 0` is inside the copy only when the copy has
at least `count - 2` characters. -/
def to_ltoken (ds : List Char) (line idx : Nat) : Option LToken :=
  match ds with
  | [] => some LToken_malformed
  | c0 :: tl =>
    if c0 = '\"' then
      if ds.length < 2 then some LToken_malformed
      else if ds.length - 2 ≤ (cstr tl).length then
        some { tok := Token.TOKEN_STRING ((cstr tl).take (ds.length - 2)),
               line := line, idx := idx }
      else none
    else if is_numeric c0 then
      some { tok := Token.TOKEN_INT (atoi ds), line := line, idx := idx }
    else if cstr ds = ['('] then
      some { tok := Token.TOKEN_SYNTAX SyntaxKind.SYNTAX_OPAREN, line := line, idx := idx }
    else if cstr ds = [')'] then
      some { tok := Token.TOKEN_SYNTAX SyntaxKind.SYNTAX_CPAREN, line := line, idx := idx }
    else
      some { tok := Token.TOKEN_IDENT (cstr ds), line := line, idx := idx }

/-! ## Tree builder (main.c 275-434) -/

/-- The struct `AObj` with its `kind`; a node of kind `AAst` holds the items
of the `AST` it points to. -/
inductive AObj
  | AAst (ast : List AObj)
  | ALToken (ltoken : LToken)
  | AEnd
  | ANull
deriving Repr

/-- The struct `AST`: its `count` items. -/
abbrev AST := List AObj

/-- The constant `AObjNull` (main.c 295-298). -/
def AObjNull : AObj := AObj.ANull

/-- The test `items[count - 1].kind == AEnd` on a list with `count != 0`. -/
def last_is_end (ast : AST) : Bool :=
  match ast.getLast? with
  | some AObj.AEnd => true
  | _ => false

/-- The descent of `ast_append_ltoken` (main.c 347-363) followed by the
store of `node` at `prev->items[prev->count]`.  The walk goes to the last
item of the list; when that item is a list that is empty or does not end in
`AEnd` the walk goes on inside it, otherwise the node is appended here. -/
def ast_append_node : AST → AObj → AST
  | [], node => [node]
  | [AObj.AAst sub], node =>
    if last_is_end sub then [AObj.AAst sub, node]
    else [AObj.AAst (ast_append_node sub node)]
  | [x], node => [x, node]
  | x :: y :: rest, node => x :: ast_append_node (y :: rest) node

/-- `ast_append_ltoken` (main.c 345-428). -/
def ast_append_ltoken (ast : AST) (lt : LToken) : AST :=
  match lt.tok with
  | Token.TOKEN_INT _ => ast_append_node ast (AObj.ALToken lt)
  | Token.TOKEN_IDENT _ => ast_append_node ast (AObj.ALToken lt)
  | Token.TOKEN_STRING _ => ast_append_node ast (AObj.ALToken lt)
  | Token.TOKEN_SYNTAX SyntaxKind.SYNTAX_OPAREN => ast_append_node ast (AObj.AAst [])
  | Token.TOKEN_SYNTAX SyntaxKind.SYNTAX_CPAREN => ast_append_node ast AObj.AEnd
  | Token.TOKEN_MALFORMED => ast

/-! ## Evaluator (main.c 436-539) -/

/-- The `int` that `araw.as.ltoken->data.as_int` reads (main.c 500 and 520)
when `araw` has kind `AAst`: the union `as` then holds the `AST *`, and the
member `data` of `LToken` lies where `count` lies in `AST` (after the first
word of the struct), so the read yields the number of items of the nested
list, as an `int`. -/
def ast_read_as_int (sub : AST) : Int := wrap_int (sub.length : Int)

/-- The `LToken` allocated for a result (main.c 473-477 and 527-531). -/
def int_result (v : Int) : AObj :=
  AObj.ALToken { tok := Token.TOKEN_INT v, line := 0, idx := 0 }

mutual
/-- The call `traverse_ast_rec(ob->as.ast)` made for an item of kind `AAst`. -/
def traverse_nested (ob : AObj) : Option AObj :=
  match ob with
  | AObj.AAst sub => traverse_ast_rec sub
  | _ => none
termination_by structural ob
/-- `traverse_ast_rec` (main.c 438-539).  `none`: control reaches the end of
the function, which has no `return` there, or a nested call did. -/
def traverse_ast_rec (ast : AST) : Option AObj :=
  if ast.length < 3 then some AObjNull
  else
    match ast with
    | [] => some AObjNull
    | fn :: operands =>
      match fn with
      | AObj.ALToken { tok := Token.TOKEN_IDENT name, line := _, idx := _ } =>
        if name = ['+'] then traverse_plus operands 0
        else if name = ['-'] then
          match operands with
          | [araw, braw, _] =>
            match traverse_minus_operand araw with
            | none => none
            | some none => some AObjNull
            | some (some a) =>
              match traverse_minus_operand braw with
              | none => none
              | some none => some AObjNull
              | some (some b) => some (int_result (wrap_int (a - b)))
          | _ => some AObjNull
        else none
      | _ => none
termination_by structural ast
/-- The loop `vec_foreach(AObj, ob, ast)` of the `+` branch (main.c 452-472)
from its second iteration on (the first one, `ctr == 1`, skips the operator),
then the construction of the result. -/
def traverse_plus (obs : AST) (total : Nat) : Option AObj :=
  match obs with
  | [] => some (int_result (wrap_int (total : Int)))
  | ob :: rest =>
    match ob with
    | AObj.ALToken { tok := Token.TOKEN_INT v, line := _, idx := _ } =>
      traverse_plus rest (size_t_add total v)
    | AObj.AAst _ =>
      match traverse_nested ob with
      | none => none
      | some (AObj.ALToken { tok := Token.TOKEN_INT v, line := _, idx := _ }) =>
        traverse_plus rest (size_t_add total v)
      | some _ => traverse_plus rest total
    | AObj.AEnd => traverse_plus rest total
    | _ => some AObjNull
termination_by structural obs
/-- The resolution of one operand of `-` (main.c 487-506 and 507-526):
`some (some v)` is the `int` stored in `a` or `b`, `some none` stands for
`return AObjNull`. -/
def traverse_minus_operand (raw : AObj) : Option (Option Int) :=
  match raw with
  | AObj.ALToken { tok := Token.TOKEN_INT v, line := _, idx := _ } => some (some v)
  | AObj.AAst sub =>
    match traverse_ast_rec sub with
    | none => none
    | some (AObj.ALToken { tok := Token.TOKEN_INT _, line := _, idx := _ }) =>
      some (some (ast_read_as_int sub))
    | some _ => some none
  | _ => some none
termination_by structural raw
end

/-! ## Driver (main.c 541-580) -/

/-- Result of running a loop of the program with a bound on its iterations. -/
inductive Outcome (α : Type)
  | ok (a : α)
  | undefined
  | out_of_fuel
deriving Repr

/-- The loop of `main` (main.c 560-567), at most `fuel` calls of
`lispexer_next`; `ast_append_from_lexer` (main.c 430-434) classifies the
lexeme with the position reached and appends the token. -/
def main_loop : Nat → Lispexer → AST → Outcome (Lispexer × AST)
  | 0, _, _ => Outcome.out_of_fuel
  | fuel + 1, l0, ast =>
    let l := lispexer_next l0
    if l.ds.length != 0 then
      match to_ltoken l.ds l.pos_line l.pos_idx with
      | some lt => main_loop fuel l (ast_append_ltoken ast lt)
      | none => Outcome.undefined
    else Outcome.ok (l, ast)

/-- The tree `main` builds from the text of the file. -/
def build_ast (contents : List Char) : Outcome AST :=
  match main_loop (contents.length + 1) (lispexer_from_dstring contents) [] with
  | Outcome.ok (_, ast) => Outcome.ok ast
  | Outcome.undefined => Outcome.undefined
  | Outcome.out_of_fuel => Outcome.out_of_fuel

/-- The call `traverse_ast_rec(ast.items[0].as.ast)` of `main` (main.c 572);
it has a defined meaning only when the first item of the root is a list. -/
def main_result (ast : AST) : Option AObj :=
  match ast with
  | AObj.AAst sub :: _ => traverse_ast_rec sub
  | _ => none

/-! ## Vocabulary of the specification -/

/-- The node `Leaf(Int v)`, with the position of its token. -/
def int_leaf (v : Int) (line idx : Nat) : AObj :=
  AObj.ALToken { tok := Token.TOKEN_INT v, line := line, idx := idx }

/-- The node `Leaf(Ident name)`, with the position of its token. -/
def ident_leaf (name : List Char) (line idx : Nat) : AObj :=
  AObj.ALToken { tok := Token.TOKEN_IDENT name, line := line, idx := idx }

/-- An operand with the integer it stands for: `Leaf(Int v)`, or a list that
`traverse_ast_rec` evaluates to `Leaf(Int v)`. -/
def operand_value (ob : AObj) (v : Int) : Prop :=
  (∃ line idx, ob = int_leaf v line idx) ∨
  (∃ sub line idx, ob = AObj.AAst sub ∧ traverse_ast_rec sub = some (int_leaf v line idx))

/-- The state reached by the first call of `lispexer_next` on the text
`ab (c`: the lexeme `ab` is in the accumulator and `head` stands on the
parenthesis.  Used to instantiate the general statements. -/
def sample_lexer : Lispexer :=
  { contents := ['a', 'b', ' ', '(', 'c'], ds := ['a', 'b'], head := 3, pos_line := 0,
    pos_idx := 3, old_head := 0, old_pos_line := 0, old_pos_idx := 0 }

/-- A character that outside a string is appended to the lexeme in progress
(main.c 122): not a newline, a quote, a whitespace or a parenthesis. -/
def is_word_char (ch : Char) : Bool :=
  !(ch == '\n') && !(ch == '\"') && !(is_whitespace ch) && !(ch == '(') && !(ch == ')')

/-- The body of a string literal as a sequence of units: one character other
than the quote, the backslash, LF and NUL, or a backslash followed by one
character other than LF and NUL. -/
def is_string_body : List Char → Bool
  | [] => true
  | c :: rest =>
    if c = '\\' then
      match rest with
      | [] => false
      | e :: rest2 => !(e == '\n') && !(e == NUL) && is_string_body rest2
    else !(c == '\"') && !(c == '\n') && !(c == NUL) && is_string_body rest

/-- The value the specification gives to the body of a string literal: each
escaping backslash removed, the escaped character kept. -/
def unescape : List Char → List Char
  | [] => []
  | c :: rest =>
    if c = '\\' then
      match rest with
      | [] => []
      | e :: rest2 => e :: unescape rest2
    else c :: unescape rest

/-- The decimal literal of a natural number. -/
def decimal (n : Nat) : List Char := Nat.toDigits 10 n

/-- The operands of the source text `(+ n1 ... nk)`, each preceded by one
space. -/
def operands_text : List Nat → List Char
  | [] => []
  | n :: ns => ' ' :: (decimal n ++ operands_text ns)

/-- The source text `(+ n1 n2 ... nk)`. -/
def sum_source (ns : List Nat) : List Char :=
  '(' :: '+' :: (operands_text ns ++ [')'])

/-- The node `ob` is `Leaf(Int n)`, at some position of the source. -/
def is_int_leaf (ob : AObj) (n : Nat) : Prop :=
  ∃ line idx, ob = int_leaf (n : Int) line idx

/-- The tree after the tokens `ts` have been appended to `ast` one by one
with `ast_append_ltoken`. -/
def append_tokens (ast : AST) (ts : List LToken) : AST :=
  ts.foldl ast_append_ltoken ast

/-- The token has kind `TOKEN_MALFORMED`. -/
def is_malformed (lt : LToken) : Bool :=
  match lt.tok with
  | Token.TOKEN_MALFORMED => true
  | _ => false

/-- The natural number that a text of decimal digits denotes, the first
character being the most significant digit. -/
def decimal_value (run : List Char) : Nat :=
  Nat.ofDigits 10 (run.reverse.map (fun c => c.toNat - 48))

/-- The body of a string literal as the lexer reads it, a sequence of units:
one character other than the quote, the backslash and LF, or a backslash
followed by one character other than LF. -/
def is_string_units : List Char → Bool
  | [] => true
  | c :: rest =>
    if c = '\\' then
      match rest with
      | [] => false
      | e :: rest2 => !(e == '\n') && is_string_units rest2
    else !(c == '\"') && !(c == '\n') && is_string_units rest

/-- The token `Syntax(OpenParen)` at a position. -/
def oparen_token (line idx : Nat) : LToken :=
  { tok := Token.TOKEN_SYNTAX SyntaxKind.SYNTAX_OPAREN, line := line, idx := idx }

/-- The token `Syntax(CloseParen)` at a position. -/
def cparen_token (line idx : Nat) : LToken :=
  { tok := Token.TOKEN_SYNTAX SyntaxKind.SYNTAX_CPAREN, line := line, idx := idx }

/-- The token is an `Int`, `Ident` or `Str` token. -/
def is_leaf_token (lt : LToken) : Bool :=
  match lt.tok with
  | Token.TOKEN_INT _ => true
  | Token.TOKEN_IDENT _ => true
  | Token.TOKEN_STRING _ => true
  | _ => false

/-- A form of the reference parse: a single token, or a parenthesised
sequence of forms (with the positions of its two parentheses). -/
inductive Form
  | atom (lt : LToken)
  | list (open_line open_idx : Nat) (items : List Form) (close_line close_idx : Nat)

mutual
/-- The token sequence of a form. -/
def Form.tokens (f : Form) : List LToken :=
  match f with
  | Form.atom lt => [lt]
  | Form.list ol oi items cl ci =>
    oparen_token ol oi :: (Form.tokens_all items ++ [cparen_token cl ci])
termination_by structural f
/-- The token sequence of a sequence of forms. -/
def Form.tokens_all (fs : List Form) : List LToken :=
  match fs with
  | [] => []
  | f :: rest => Form.tokens f ++ Form.tokens_all rest
termination_by structural fs
end

mutual
/-- The tree of a form in the reference parse: `Leaf(token)` for a single
token, `List[tree(f1), ..., tree(fn), EndMarker]` for a parenthesised form. -/
def Form.tree (f : Form) : AObj :=
  match f with
  | Form.atom lt => AObj.ALToken lt
  | Form.list _ _ items _ _ => AObj.AAst (Form.trees items ++ [AObj.AEnd])
termination_by structural f
/-- The trees of a sequence of forms. -/
def Form.trees (fs : List Form) : AST :=
  match fs with
  | [] => []
  | f :: rest => Form.tree f :: Form.trees rest
termination_by structural fs
end

mutual
/-- Every single-token form of `f` is an `Int`, `Ident` or `Str` token. -/
def Form.wf (f : Form) : Bool :=
  match f with
  | Form.atom lt => is_leaf_token lt
  | Form.list _ _ items _ _ => Form.wf_all items
termination_by structural f
/-- Every form of the sequence is well formed. -/
def Form.wf_all (fs : List Form) : Bool :=
  match fs with
  | [] => true
  | f :: rest => Form.wf f && Form.wf_all rest
termination_by structural fs
end

/-- The insertion point of `ast` is `ast` itself: the list is empty, or its
last item is not a list, or its last item is a closed list. -/
def appends_here (ast : AST) : Bool :=
  match ast.getLast? with
  | some (AObj.AAst sub) => last_is_end sub
  | _ => true

/-- A node that the descent of `ast_append_ltoken` does not enter: a leaf, or
a list closed by `AEnd`. -/
def is_closed_node (ob : AObj) : Bool :=
  match ob with
  | AObj.ALToken _ => true
  | AObj.AAst sub => last_is_end sub
  | _ => false

/-- The node is an end marker. -/
def is_end (ob : AObj) : Bool :=
  match ob with
  | AObj.AEnd => true
  | _ => false

/-- No item of the list is an end marker. -/
def no_end (ast : AST) : Bool :=
  ast.all (fun o => !is_end o)

/-- The list holds an end marker at most once, and only as its last item. -/
def end_only_last (ast : AST) : Bool :=
  no_end ast.dropLast

mutual
/-- Every list at or below the node holds an end marker at most once, and
only as its last item. -/
def lists_end_last (ob : AObj) : Bool :=
  match ob with
  | AObj.AAst sub => end_only_last sub && all_lists_end_last sub
  | _ => true
termination_by structural ob
/-- Every list nested in the items (the list of the items itself left out)
holds an end marker at most once, and only as its last item. -/
def all_lists_end_last (ast : AST) : Bool :=
  match ast with
  | [] => true
  | o :: rest => lists_end_last o && all_lists_end_last rest
termination_by structural ast
end

/-- The node found by following a path of item indices from the root: the
first index selects an item of the root, the next one an item of that list,
and so on. -/
def node_at : AST → List Nat → Option AObj
  | _, [] => none
  | ast, [i] => ast[i]?
  | ast, i :: j :: path =>
    match ast[i]? with
    | some (AObj.AAst sub) => node_at sub (j :: path)
    | _ => none

/-- The lexemes produced by calling `lispexer_next` again and again until the
first empty lexeme, as the loop of `main` does (main.c 560-567), with at most
`fuel` calls; `none` when the calls allowed run out before an empty lexeme. -/
def lex_all : Nat → Lispexer → Option (List (List Char))
  | 0, _ => none
  | fuel + 1, l0 =>
    let l := lispexer_next l0
    if l.ds.length != 0 then (lex_all fuel l).map (fun ls => l.ds :: ls)
    else some []

/-- The text without its characters space, CR and LF. -/
def without_whitespace (cs : List Char) : List Char :=
  cs.filter (fun c => !is_whitespace c)

/-! ## Arithmetic of the evaluator -/

theorem wrap_int_of_range (z : Int) (h1 : -2147483648 ≤ z) (h2 : z < 2147483648) :
    wrap_int z = z := by
  unfold wrap_int
  omega

theorem wrap_int_size_t_add (total : Nat) (v : Int) :
    wrap_int ((size_t_add total v : Nat) : Int) = wrap_int ((total : Int) + v) := by
  unfold wrap_int size_t_add
  omega

theorem wrap_int_size_t_add_add (total : Nat) (v s : Int) :
    wrap_int (((size_t_add total v : Nat) : Int) + s) = wrap_int ((total : Int) + (v + s)) := by
  unfold wrap_int size_t_add
  omega

theorem wrap_int_add_wrap (a b : Int) : wrap_int (a + wrap_int b) = wrap_int (a + b) := by
  unfold wrap_int
  omega

theorem wrap_int_idem (a : Int) : wrap_int (wrap_int a) = wrap_int a := by
  unfold wrap_int
  omega

theorem wrap_int_range (a : Int) : -2147483648 ≤ wrap_int a ∧ wrap_int a < 2147483648 := by
  unfold wrap_int
  omega

/-- The result of `atoi` is a 32-bit `int`. -/
theorem atoi_range (s : List Char) : -2147483648 ≤ atoi s ∧ atoi s < 2147483648 :=
  wrap_int_range _

/-- When the leading digits denote a number below `2^31`, `atoi` returns it. -/
theorem atoi_of_range (s : List Char) (h : atoi_digits s 0 < 2147483648) :
    atoi s = (atoi_digits s 0 : Int) := by
  unfold atoi wrap_int
  omega

/-! ## Evaluator: unfolding lemmas -/

/-- The node built for a result (main.c 473-481 and 527-535) is the leaf
`Leaf(Int v)` at line 0, idx 0. -/
theorem int_result_eq_int_leaf (v : Int) : int_result v = int_leaf v 0 0 := rfl

theorem traverse_plus_nil (total : Nat) :
    traverse_plus [] total = some (int_result (wrap_int (total : Int))) := by
  simp [traverse_plus]

theorem traverse_plus_end (rest : AST) (total : Nat) :
    traverse_plus (AObj.AEnd :: rest) total = traverse_plus rest total := by
  simp [traverse_plus]

theorem traverse_plus_int (v : Int) (line idx : Nat) (rest : AST) (total : Nat) :
    traverse_plus (int_leaf v line idx :: rest) total
      = traverse_plus rest (size_t_add total v) := by
  simp [traverse_plus, int_leaf]

theorem traverse_plus_nested_int (sub rest : AST) (v : Int) (line idx : Nat) (total : Nat)
    (h : traverse_ast_rec sub = some (int_leaf v line idx)) :
    traverse_plus (AObj.AAst sub :: rest) total
      = traverse_plus rest (size_t_add total v) := by
  simp [traverse_plus, traverse_nested, h, int_leaf]

theorem traverse_plus_operand (ob : AObj) (v : Int) (rest : AST) (total : Nat)
    (h : operand_value ob v) :
    traverse_plus (ob :: rest) total = traverse_plus rest (size_t_add total v) := by
  rcases h with ⟨line, idx, rfl⟩ | ⟨sub, line, idx, rfl, hsub⟩
  · exact traverse_plus_int v line idx rest total
  · exact traverse_plus_nested_int sub rest v line idx total hsub

/-- The `+` loop over operands that all stand for integers, closed by the end
marker, returns the 32-bit sum. -/
theorem traverse_plus_sum (ops : AST) (vs : List Int) (h : List.Forall₂ operand_value ops vs) :
    ∀ total : Nat, traverse_plus (ops ++ [AObj.AEnd]) total
      = some (int_result (wrap_int ((total : Int) + vs.sum))) := by
  induction h with
  | nil =>
    intro total
    simp [traverse_plus_end, traverse_plus_nil]
  | cons hov _ ih =>
    intro total
    rw [List.cons_append, traverse_plus_operand _ _ _ _ hov, ih, List.sum_cons,
      wrap_int_size_t_add_add]

theorem traverse_ast_rec_short (ast : AST) (h : ast.length < 3) :
    traverse_ast_rec ast = some AObjNull := by
  cases ast with
  | nil => simp [traverse_ast_rec]
  | cons fn operands =>
    unfold traverse_ast_rec
    exact if_pos h

theorem traverse_ast_rec_plus (line idx : Nat) (operands : AST) (h : 2 ≤ operands.length) :
    traverse_ast_rec (ident_leaf ['+'] line idx :: operands) = traverse_plus operands 0 := by
  have h3 : ¬ (operands.length + 1 < 3) := by omega
  simp [traverse_ast_rec, ident_leaf, h3]

theorem traverse_ast_rec_minus_arity (line idx : Nat) (operands : AST)
    (h : operands.length ≠ 3) :
    traverse_ast_rec (ident_leaf ['-'] line idx :: operands) = some AObjNull := by
  by_cases h3 : operands.length + 1 < 3
  · exact traverse_ast_rec_short _ (by simpa using h3)
  · match operands, h with
    | [], _ => simp at h3
    | [_], _ => simp at h3
    | [_, _], _ => simp [traverse_ast_rec, ident_leaf]
    | [_, _, _], h => simp at h
    | _ :: _ :: _ :: _ :: _, _ => simp [traverse_ast_rec, ident_leaf]

theorem traverse_ast_rec_minus (line idx : Nat) (araw braw last : AObj) :
    traverse_ast_rec [ident_leaf ['-'] line idx, araw, braw, last]
      = match traverse_minus_operand araw with
        | none => none
        | some none => some AObjNull
        | some (some a) =>
          match traverse_minus_operand braw with
          | none => none
          | some none => some AObjNull
          | some (some b) => some (int_result (wrap_int (a - b))) := by
  simp [traverse_ast_rec, ident_leaf]

theorem traverse_minus_operand_int (v : Int) (line idx : Nat) :
    traverse_minus_operand (int_leaf v line idx) = some (some v) := by
  simp [traverse_minus_operand, int_leaf]

/-! ## Evaluator: the claims -/

/-- C2. A list `(+ op1 ... opk)` with at least one operand, closed by the end
marker, whose operands are integer leaves or lists that evaluate to integer
leaves, evaluates to the integer leaf holding the sum of the operands' values
in 32-bit arithmetic. -/
theorem plus_sums_operands (line idx : Nat) (ops : AST) (vs : List Int)
    (hne : ops ≠ []) (hops : List.Forall₂ operand_value ops vs) :
    traverse_ast_rec (ident_leaf ['+'] line idx :: (ops ++ [AObj.AEnd]))
      = some (int_result (wrap_int vs.sum)) := by
  have hlen : 2 ≤ (ops ++ [AObj.AEnd]).length := by
    cases ops with
    | nil => exact absurd rfl hne
    | cons o os => simp
  rw [traverse_ast_rec_plus line idx _ hlen, traverse_plus_sum ops vs hops 0]
  simp

/-- C2, witness: `(+ (- 8 3) 2)` evaluates to `Int(7)`; the nested list
`(- 8 3)` stands for 5. -/
theorem plus_sums_operands_witness :
    traverse_ast_rec
      [ident_leaf ['+'] 0 3,
       AObj.AAst [ident_leaf ['-'] 0 6, int_leaf 8 0 8, int_leaf 3 0 9, AObj.AEnd],
       int_leaf 2 0 11, AObj.AEnd] = some (int_result 7) :=
  plus_sums_operands 0 3
    [AObj.AAst [ident_leaf ['-'] 0 6, int_leaf 8 0 8, int_leaf 3 0 9, AObj.AEnd],
     int_leaf 2 0 11]
    [5, 2] (by simp)
    (List.Forall₂.cons (Or.inr ⟨_, 0, 0, rfl, rfl⟩)
      (List.Forall₂.cons (Or.inl ⟨0, 11, rfl⟩) List.Forall₂.nil))

/-- C3 (the code departs from the claim). In `(- (+ 5 3) 2)` the nested list
evaluates to `Int(8)`, yet the value taken for the first operand is read from
the list node itself, not from the evaluated result (main.c 500): the code
returns `Int(2)`, the number of items of `(+ 5 3)` minus 2, where the claim
says `Int(6)`. -/
theorem minus_nested_operand_not_resolved :
    traverse_ast_rec [ident_leaf ['+'] 0 6, int_leaf 5 0 8, int_leaf 3 0 9, AObj.AEnd]
      = some (int_result 8) ∧
    traverse_ast_rec
      [ident_leaf ['-'] 0 3,
       AObj.AAst [ident_leaf ['+'] 0 6, int_leaf 5 0 8, int_leaf 3 0 9, AObj.AEnd],
       int_leaf 2 0 11, AObj.AEnd] = some (int_result 2) :=
  ⟨rfl, rfl⟩

/-- C4. For all integers `a` and `b` the list `(- a b)` of two integer leaves,
closed by the end marker, evaluates to the leaf `Leaf(Int (a - b))`, a token
of kind Int at line 0, idx 0, the difference being reduced to 32 bits; when
`a - b` lies in the range of an `int` the leaf holds `a - b` itself;
`(- 10 4)` evaluates to `Int(6)`. -/
theorem minus_literals :
    (∀ (a b : Int) (line idx la ia lb ib : Nat),
      traverse_ast_rec
        [ident_leaf ['-'] line idx, int_leaf a la ia, int_leaf b lb ib, AObj.AEnd]
        = some (AObj.ALToken
            { tok := Token.TOKEN_INT (wrap_int (a - b)), line := 0, idx := 0 })) ∧
    (∀ (a b : Int) (line idx la ia lb ib : Nat),
      -2147483648 ≤ a - b → a - b < 2147483648 →
      traverse_ast_rec
        [ident_leaf ['-'] line idx, int_leaf a la ia, int_leaf b lb ib, AObj.AEnd]
        = some (int_leaf (a - b) 0 0)) ∧
    traverse_ast_rec [ident_leaf ['-'] 0 3, int_leaf 10 0 6, int_leaf 4 0 7, AObj.AEnd]
      = some (int_leaf 6 0 0) := by
  have key : ∀ (a b : Int) (line idx la ia lb ib : Nat),
      traverse_ast_rec
        [ident_leaf ['-'] line idx, int_leaf a la ia, int_leaf b lb ib, AObj.AEnd]
        = some (int_leaf (wrap_int (a - b)) 0 0) := by
    intro a b line idx la ia lb ib
    simp only [traverse_ast_rec_minus, traverse_minus_operand_int, int_result_eq_int_leaf]
  refine ⟨key, ?_, rfl⟩
  intro a b line idx la ia lb ib h1 h2
  rw [key, wrap_int_of_range _ h1 h2]

/-- C4, witness: `(- 7 9)` evaluates to `Int(-2)`. -/
theorem minus_literals_witness :
    (-2147483648 : Int) ≤ 7 - 9 ∧ (7 : Int) - 9 < 2147483648 ∧
    traverse_ast_rec [ident_leaf ['-'] 0 3, int_leaf 7 0 6, int_leaf 9 0 7, AObj.AEnd]
      = some (int_leaf (-2) 0 0) :=
  ⟨by decide, by decide, minus_literals.2.1 7 9 0 3 0 6 0 7 (by decide) (by decide)⟩

/-- C5 (the code departs from the claim). In `(+ (- 1 2 3) 5)` the nested list
evaluates to Null, and the `+` loop goes on to the next operand instead of
returning Null (main.c 462-467 has no `else`): the code returns the partial
sum `Int(5)`. -/
theorem plus_skips_null_operand :
    traverse_ast_rec
      [ident_leaf ['-'] 0 6, int_leaf 1 0 8, int_leaf 2 0 10, int_leaf 3 0 11, AObj.AEnd]
      = some AObjNull ∧
    traverse_ast_rec
      [ident_leaf ['+'] 0 3,
       AObj.AAst [ident_leaf ['-'] 0 6, int_leaf 1 0 8, int_leaf 2 0 10, int_leaf 3 0 11,
         AObj.AEnd],
       int_leaf 5 0 14, AObj.AEnd] = some (int_result 5) :=
  ⟨rfl, rfl⟩

/-- C6 (the code departs from the claim). For `(* 1 2)` no branch of
`traverse_ast_rec` is taken and control reaches the end of the function,
which has no `return AObjNull` there: no result is returned. -/
theorem unsupported_head_returns_nothing :
    traverse_ast_rec [ident_leaf ['*'] 0 3, int_leaf 1 0 5, int_leaf 2 0 6, AObj.AEnd]
      = none :=
  rfl

/-- C7. A list whose first child is `Leaf(Ident "-")` and whose number of
children is not 4 evaluates to Null, whatever the other children are. -/
theorem minus_arity (line idx : Nat) (rest : AST)
    (h : (ident_leaf ['-'] line idx :: rest).length ≠ 4) :
    traverse_ast_rec (ident_leaf ['-'] line idx :: rest) = some AObjNull :=
  traverse_ast_rec_minus_arity line idx rest (by simpa using h)

/-- C7, witness: `(- 10 4 5)` has 5 children with the end marker and
evaluates to Null. -/
theorem minus_arity_witness :
    [ident_leaf ['-'] 0 3, int_leaf 10 0 6, int_leaf 4 0 8, int_leaf 5 0 9, AObj.AEnd].length = 5 ∧
    traverse_ast_rec
      [ident_leaf ['-'] 0 3, int_leaf 10 0 6, int_leaf 4 0 8, int_leaf 5 0 9, AObj.AEnd]
      = some AObjNull :=
  ⟨rfl, minus_arity 0 3 [int_leaf 10 0 6, int_leaf 4 0 8, int_leaf 5 0 9, AObj.AEnd]
    (by decide)⟩

/-! ## Lexer: progress -/

/-- What one run of the scanning loop does to the cursor and the accumulator:
the buffer is untouched, `head` moves forward by at most the number of unread
characters, every character appended was consumed, and the loop stops early
only with a non-empty accumulator. -/
theorem lispexer_scan_progress (rest : List Char) (l : Lispexer) (in_string escaping : Bool) :
    (lispexer_scan rest l in_string escaping).contents = l.contents ∧
    l.head ≤ (lispexer_scan rest l in_string escaping).head ∧
    (lispexer_scan rest l in_string escaping).head ≤ l.head + rest.length ∧
    (lispexer_scan rest l in_string escaping).ds.length + l.head
      ≤ (lispexer_scan rest l in_string escaping).head + l.ds.length ∧
    l.ds.length ≤ (lispexer_scan rest l in_string escaping).ds.length ∧
    ((lispexer_scan rest l in_string escaping).ds.length = 0 →
      (lispexer_scan rest l in_string escaping).head = l.head + rest.length) := by
  induction rest, l, in_string, escaping using lispexer_scan.induct
  all_goals (unfold lispexer_scan; simp only [*, if_true, if_false])
  all_goals simp_all [Lispexer.append, Lispexer.advance, -List.length_eq_zero]
  all_goals omega

theorem lispexer_next_contents (l : Lispexer) : (lispexer_next l).contents = l.contents :=
  (lispexer_scan_progress _ _ _ _).1

theorem lispexer_next_count (l : Lispexer) : (lispexer_next l).count = l.count := by
  unfold Lispexer.count
  rw [lispexer_next_contents]

theorem lispexer_next_head (l : Lispexer) (h : l.head ≤ l.count) :
    l.head ≤ (lispexer_next l).head ∧ (lispexer_next l).head ≤ l.count ∧
    ((lispexer_next l).ds.length ≠ 0 → l.head < (lispexer_next l).head) ∧
    ((lispexer_next l).ds.length = 0 → (lispexer_next l).head = l.count) := by
  obtain ⟨_, h2, h3, h4, _, h6⟩ := lispexer_scan_progress (l.contents.drop l.head)
    { l with ds := [], old_head := l.head, old_pos_idx := l.pos_idx,
             old_pos_line := l.pos_line } false false
  unfold Lispexer.count at *
  simp only [List.length_drop, List.length_nil] at h2 h3 h4 h6
  unfold lispexer_next
  refine ⟨h2, by omega, by omega, fun h0 => ?_⟩
  have := h6 h0
  omega

/-- Calling `lispexer_next` again and again reaches an empty lexeme after at
most `count - head + 1` calls. -/
theorem lispexer_next_iterate_stops (k : Nat) :
    ∀ l : Lispexer, l.head ≤ l.count → l.count - l.head ≤ k →
      ∃ n, n ≤ k ∧ ((lispexer_next^[n + 1]) l).ds = [] := by
  induction k with
  | zero =>
    intro l h hk
    refine ⟨0, le_refl 0, ?_⟩
    obtain ⟨_, h2, h3, _⟩ := lispexer_next_head l h
    by_contra hne
    have := h3 (by simpa using hne)
    omega
  | succ k ih =>
    intro l h hk
    by_cases hds : (lispexer_next l).ds = []
    · exact ⟨0, Nat.zero_le _, hds⟩
    · obtain ⟨_, h2, h3, _⟩ := lispexer_next_head l h
      have hlt := h3 (by simpa using hds)
      have hc := lispexer_next_count l
      obtain ⟨n, hn, hres⟩ := ih (lispexer_next l) (by omega) (by omega)
      exact ⟨n + 1, by omega, by simpa [Function.iterate_succ_apply] using hres⟩

/-- The loop of `main` never uses more calls than there are unread characters,
plus one. -/
theorem main_loop_fuel (fuel : Nat) :
    ∀ (l : Lispexer) (ast : AST), l.head ≤ l.count → l.count - l.head < fuel →
      main_loop fuel l ast ≠ Outcome.out_of_fuel := by
  induction fuel with
  | zero => intro l ast _ hk; omega
  | succ fuel ih =>
    intro l ast h hk
    obtain ⟨_, h2, h3, _⟩ := lispexer_next_head l h
    have hc := lispexer_next_count l
    unfold main_loop
    by_cases hds : (lispexer_next l).ds.length = 0
    · simp [hds]
    · simp only [bne_iff_ne, ne_eq, hds, not_false_eq_true, if_true]
      cases hlt : to_ltoken (lispexer_next l).ds (lispexer_next l).pos_line
          (lispexer_next l).pos_idx with
      | none => simp
      | some lt =>
        have := h3 hds
        exact ih (lispexer_next l) _ (by omega) (by omega)

/-- C8. From every state with `head <= count`, `lispexer_next` returns with
`head <= count` and `head` not smaller than before; a non-empty lexeme means
`head` has strictly increased, an empty one that `head == count`.  Hence among
the first `count + 1` calls one yields the empty lexeme, and the loop of
`main` run with `count + 1` calls allowed is never cut short. -/
theorem lispexer_next_progress (l : Lispexer) (h : l.head ≤ l.count) :
    (lispexer_next l).count = l.count ∧
    (lispexer_next l).head ≤ (lispexer_next l).count ∧
    l.head ≤ (lispexer_next l).head ∧
    ((lispexer_next l).ds ≠ [] → l.head < (lispexer_next l).head) ∧
    ((lispexer_next l).ds = [] → (lispexer_next l).head = (lispexer_next l).count) ∧
    (∃ n, n ≤ l.count ∧ ((lispexer_next^[n + 1]) l).ds = []) ∧
    (∀ ast : AST, main_loop (l.count + 1) l ast ≠ Outcome.out_of_fuel) := by
  obtain ⟨h1, h2, h3, h4⟩ := lispexer_next_head l h
  have hc := lispexer_next_count l
  refine ⟨hc, by omega, h1, fun hne => h3 (by simpa using hne),
    fun he => by rw [hc]; exact h4 (by simp [he]), ?_, ?_⟩
  · obtain ⟨n, hn, hres⟩ := lispexer_next_iterate_stops (l.count - l.head) l h (le_refl _)
    exact ⟨n, by omega, hres⟩
  · intro ast
    exact main_loop_fuel (l.count + 1) l ast h (by omega)

/-- C8, witness: in the text `ab (c`, from the state reached by the first
call, the second call returns the lexeme `(` and moves `head` from 3 to 4. -/
theorem lispexer_next_progress_witness :
    sample_lexer = lispexer_next (lispexer_from_dstring ['a', 'b', ' ', '(', 'c']) ∧
    sample_lexer.head ≤ sample_lexer.count ∧
    (lispexer_next sample_lexer).ds = ['('] ∧
    (lispexer_next sample_lexer).head = 4 ∧
    sample_lexer.head < (lispexer_next sample_lexer).head :=
  ⟨by decide, by decide, by decide, by decide,
    (lispexer_next_progress sample_lexer (by decide)).2.2.2.1 (by decide)⟩

/-! ## Lexer: step lemmas -/

theorem is_word_char_iff (c : Char) :
    is_word_char c = true ↔
      c ≠ '\n' ∧ c ≠ '\"' ∧ c ≠ ' ' ∧ c ≠ '\r' ∧ c ≠ '(' ∧ c ≠ ')' := by
  simp [is_word_char, is_whitespace]
  tauto

theorem lispexer_scan_word_char (c : Char) (hc : is_word_char c = true) (rest : List Char)
    (l : Lispexer) :
    lispexer_scan (c :: rest) l false false
      = lispexer_scan rest
          { l with ds := l.ds ++ [c], head := l.head + 1, pos_idx := l.pos_idx + 1 }
          false false := by
  obtain ⟨h1, h2, h3, h4, h5, h6⟩ := (is_word_char_iff c).1 hc
  rw [lispexer_scan]
  simp [h1, h2, h3, h4, h5, h6, is_whitespace, Lispexer.append, Lispexer.advance]

/-- Outside a string a run of word characters is appended to the lexeme. -/
theorem lispexer_scan_word (u : List Char) (hu : ∀ c ∈ u, is_word_char c = true) :
    ∀ (rest : List Char) (l : Lispexer),
      lispexer_scan (u ++ rest) l false false
        = lispexer_scan rest
            { l with ds := l.ds ++ u, head := l.head + u.length,
                     pos_idx := l.pos_idx + u.length } false false := by
  induction u with
  | nil => intro rest l; simp
  | cons c u ih =>
    intro rest l
    rw [List.cons_append, lispexer_scan_word_char c (hu c (List.mem_cons_self c u)),
      ih (fun d hd => hu d (List.mem_cons_of_mem c hd))]
    simp [Nat.add_assoc, Nat.add_comm 1]

/-- A space or a carriage return after a non-empty lexeme ends the token and
is consumed. -/
theorem lispexer_scan_blank (w : Char) (hw : w = ' ' ∨ w = '\r') (rest : List Char)
    (l : Lispexer) (hds : l.ds ≠ []) :
    lispexer_scan (w :: rest) l false false
      = { l with head := l.head + 1, pos_idx := l.pos_idx + 1 } := by
  rw [lispexer_scan]
  rcases hw with rfl | rfl <;> simp [is_whitespace, Lispexer.advance, hds]

/-- A parenthesis after a non-empty lexeme ends the token and is left unread. -/
theorem lispexer_scan_paren (p : Char) (hp : p = '(' ∨ p = ')') (rest : List Char)
    (l : Lispexer) (hds : l.ds ≠ []) :
    lispexer_scan (p :: rest) l false false = l := by
  rw [lispexer_scan]
  rcases hp with rfl | rfl <;> simp [is_whitespace, hds]

/-- A parenthesis met with an empty accumulator is a lexeme of its own. -/
theorem lispexer_scan_paren_alone (p : Char) (hp : p = '(' ∨ p = ')') (rest : List Char)
    (l : Lispexer) (hds : l.ds = []) :
    lispexer_scan (p :: rest) l false false
      = { l with ds := [p], head := l.head + 1, pos_idx := l.pos_idx + 1 } := by
  rw [lispexer_scan]
  rcases hp with rfl | rfl <;>
    simp [is_whitespace, hds, Lispexer.append, Lispexer.advance]

/-- A newline is consumed without touching the lexeme or the two flags. -/
theorem lispexer_scan_newline (rest : List Char) (l : Lispexer) (in_string escaping : Bool) :
    lispexer_scan ('\n' :: rest) l in_string escaping
      = lispexer_scan rest
          { l with pos_line := l.pos_line + 1, pos_idx := 0, head := l.head + 1 }
          in_string escaping := by
  rw [lispexer_scan]
  simp


/-- Inside a string a body made of units is appended whole, and the closing
quote ends the token. -/
theorem lispexer_scan_string_body (body : List Char) (hb : is_string_body body = true) :
    ∀ (rest : List Char) (l : Lispexer),
      lispexer_scan (body ++ '\"' :: rest) l true false
        = { l with ds := l.ds ++ body ++ ['\"'], head := l.head + body.length + 1,
                   pos_idx := l.pos_idx + body.length + 1 } := by
  induction body using is_string_body.induct with
  | case1 =>
    intro rest l
    rw [List.nil_append, lispexer_scan]
    simp [Lispexer.append, Lispexer.advance]
  | case2 =>
    simp [is_string_body] at hb
  | case3 e rest2 ih =>
    intro rest l
    simp only [is_string_body, if_true, Bool.and_eq_true, Bool.not_eq_true', beq_eq_false_iff_ne,
      ne_eq] at hb
    obtain ⟨⟨he1, _⟩, hr⟩ := hb
    rw [List.cons_append, List.cons_append, lispexer_scan]
    simp only [Char.reduceEq, if_false, Bool.false_eq_true, Bool.true_and, beq_iff_eq,
      Bool.and_self, if_true]
    rw [lispexer_scan]
    simp only [he1, if_false, if_true]
    rw [ih hr]
    simp [Lispexer.append, Lispexer.advance, Nat.add_assoc, Nat.add_comm 1]
    omega
  | case4 c rest1 hc ih =>
    intro rest l
    unfold is_string_body at hb
    simp only [hc, if_false, Bool.and_eq_true, Bool.not_eq_true',
      beq_eq_false_iff_ne, ne_eq] at hb
    obtain ⟨⟨⟨h1, h2⟩, _⟩, hr⟩ := hb
    rw [List.cons_append, lispexer_scan]
    simp only [h1, h2, hc, if_false, Bool.false_eq_true, Bool.true_and, beq_iff_eq,
      Bool.not_true, Bool.false_and]
    rw [ih hr]
    simp [Lispexer.append, Lispexer.advance, Nat.add_assoc, Nat.add_comm 1]

/-! ## Lexer: whole calls -/

theorem lispexer_next_eof (l : Lispexer) (hdrop : l.contents.drop l.head = []) :
    lispexer_next l
      = { l with ds := [], old_head := l.head, old_pos_idx := l.pos_idx,
                 old_pos_line := l.pos_line } := by
  unfold lispexer_next
  rw [hdrop, lispexer_scan]

theorem lispexer_next_word_eof (l : Lispexer) (u : List Char)
    (hu : ∀ c ∈ u, is_word_char c = true) (hdrop : l.contents.drop l.head = u) :
    lispexer_next l
      = { l with ds := u, head := l.head + u.length, pos_idx := l.pos_idx + u.length,
                 old_head := l.head, old_pos_idx := l.pos_idx,
                 old_pos_line := l.pos_line } := by
  unfold lispexer_next
  rw [hdrop, ← List.append_nil u, lispexer_scan_word u hu, lispexer_scan]
  simp

theorem lispexer_next_word_blank (l : Lispexer) (u rest : List Char) (w : Char)
    (hu : ∀ c ∈ u, is_word_char c = true) (hne : u ≠ []) (hw : w = ' ' ∨ w = '\r')
    (hdrop : l.contents.drop l.head = u ++ w :: rest) :
    lispexer_next l
      = { l with ds := u, head := l.head + u.length + 1, pos_idx := l.pos_idx + u.length + 1,
                 old_head := l.head, old_pos_idx := l.pos_idx,
                 old_pos_line := l.pos_line } := by
  unfold lispexer_next
  rw [hdrop, lispexer_scan_word u hu, lispexer_scan_blank w hw _ _ (by simpa using hne)]
  simp

theorem lispexer_next_word_paren (l : Lispexer) (u rest : List Char) (p : Char)
    (hu : ∀ c ∈ u, is_word_char c = true) (hne : u ≠ []) (hp : p = '(' ∨ p = ')')
    (hdrop : l.contents.drop l.head = u ++ p :: rest) :
    lispexer_next l
      = { l with ds := u, head := l.head + u.length, pos_idx := l.pos_idx + u.length,
                 old_head := l.head, old_pos_idx := l.pos_idx,
                 old_pos_line := l.pos_line } := by
  unfold lispexer_next
  rw [hdrop, lispexer_scan_word u hu, lispexer_scan_paren p hp _ _ (by simpa using hne)]
  simp

theorem lispexer_next_paren (l : Lispexer) (rest : List Char) (p : Char)
    (hp : p = '(' ∨ p = ')') (hdrop : l.contents.drop l.head = p :: rest) :
    lispexer_next l
      = { l with ds := [p], head := l.head + 1, pos_idx := l.pos_idx + 1,
                 old_head := l.head, old_pos_idx := l.pos_idx,
                 old_pos_line := l.pos_line } := by
  unfold lispexer_next
  rw [hdrop, lispexer_scan_paren_alone p hp _ _ rfl]

theorem lispexer_next_string (l : Lispexer) (body rest : List Char)
    (hb : is_string_body body = true)
    (hdrop : l.contents.drop l.head = '\"' :: (body ++ '\"' :: rest)) :
    lispexer_next l
      = { l with ds := '\"' :: (body ++ ['\"']), head := l.head + body.length + 2,
                 pos_idx := l.pos_idx + body.length + 2,
                 old_head := l.head, old_pos_idx := l.pos_idx,
                 old_pos_line := l.pos_line } := by
  unfold lispexer_next
  rw [hdrop, lispexer_scan]
  simp only [Char.reduceEq, if_false, Bool.false_eq_true, Bool.false_and, Bool.not_false,
    Bool.true_and, beq_self_eq_true, if_true, List.length_nil, bne_self_eq_false,
    Lispexer.append, Lispexer.advance]
  rw [lispexer_scan_string_body body hb]
  simp [Nat.add_assoc, Nat.add_comm 1]

/-- A space or a carriage return between two words separates them: the first
call returns the first word, the second call the second word, the third call
the empty lexeme. -/
theorem blank_separates_words (u v : List Char) (w : Char)
    (hu : ∀ c ∈ u, is_word_char c = true) (hv : ∀ c ∈ v, is_word_char c = true)
    (hune : u ≠ []) (hw : w = ' ' ∨ w = '\r') :
    (lispexer_next (lispexer_from_dstring (u ++ w :: v))).ds = u ∧
    (lispexer_next (lispexer_next (lispexer_from_dstring (u ++ w :: v)))).ds = v ∧
    (lispexer_next (lispexer_next (lispexer_next
      (lispexer_from_dstring (u ++ w :: v))))).ds = [] := by
  have h1 := lispexer_next_word_blank (lispexer_from_dstring (u ++ w :: v)) u v w hu hune hw
    (by simp [lispexer_from_dstring])
  rw [h1]
  have h2 := lispexer_next_word_eof
    { lispexer_from_dstring (u ++ w :: v) with
        ds := u, head := (lispexer_from_dstring (u ++ w :: v)).head + u.length + 1,
        pos_idx := (lispexer_from_dstring (u ++ w :: v)).pos_idx + u.length + 1,
        old_head := (lispexer_from_dstring (u ++ w :: v)).head,
        old_pos_idx := (lispexer_from_dstring (u ++ w :: v)).pos_idx,
        old_pos_line := (lispexer_from_dstring (u ++ w :: v)).pos_line } v hv
    (by simp [lispexer_from_dstring])
  rw [h2]
  refine ⟨rfl, rfl, ?_⟩
  rw [lispexer_next_eof _ (by simp [lispexer_from_dstring]; omega)]

/-! ## Classifier and driver: unfolding lemmas -/

theorem cstr_of_no_nul (s : List Char) (h : ∀ c ∈ s, c ≠ NUL) : cstr s = s := by
  induction s with
  | nil => rfl
  | cons c s ih =>
    rw [cstr, if_neg (h c (List.mem_cons_self c s)),
      ih (fun d hd => h d (List.mem_cons_of_mem c hd))]

theorem is_string_body_no_nul (body : List Char) (hb : is_string_body body = true) :
    ∀ c ∈ body, c ≠ NUL := by
  induction body using is_string_body.induct with
  | case1 => intro c hc; simp at hc
  | case2 => simp [is_string_body] at hb
  | case3 e rest2 ih =>
    simp only [is_string_body, if_true, Bool.and_eq_true, Bool.not_eq_true', beq_eq_false_iff_ne,
      ne_eq] at hb
    obtain ⟨⟨_, he2⟩, hr⟩ := hb
    intro c hc
    simp only [List.mem_cons] at hc
    rcases hc with rfl | rfl | hc
    · decide
    · exact he2
    · exact ih hr c hc
  | case4 c rest1 hc ih =>
    unfold is_string_body at hb
    simp only [hc, if_false, Bool.and_eq_true, Bool.not_eq_true',
      beq_eq_false_iff_ne, ne_eq] at hb
    obtain ⟨⟨_, h3⟩, hr⟩ := hb
    intro d hd
    simp only [List.mem_cons] at hd
    rcases hd with rfl | hd
    · exact h3
    · exact ih hr d hd

/-- A lexeme made of a quote, a text without NUL and a quote is classified as
the string token of the text. -/
theorem to_ltoken_string (body : List Char) (hnul : ∀ c ∈ body, c ≠ NUL) (line idx : Nat) :
    to_ltoken ('\"' :: (body ++ ['\"'])) line idx
      = some { tok := Token.TOKEN_STRING body, line := line, idx := idx } := by
  have hc : cstr (body ++ ['\"']) = body ++ ['\"'] := by
    apply cstr_of_no_nul
    intro c hc
    simp only [List.mem_append, List.mem_singleton] at hc
    rcases hc with hc | rfl
    · exact hnul c hc
    · decide
  simp [to_ltoken, hc]

theorem main_loop_step (fuel : Nat) (l : Lispexer) (ast : AST) (lt : LToken)
    (hds : (lispexer_next l).ds ≠ [])
    (ht : to_ltoken (lispexer_next l).ds (lispexer_next l).pos_line (lispexer_next l).pos_idx
      = some lt) :
    main_loop (fuel + 1) l ast = main_loop fuel (lispexer_next l) (ast_append_ltoken ast lt) := by
  rw [main_loop]
  simp [hds, ht]

theorem main_loop_stop (fuel : Nat) (l : Lispexer) (ast : AST)
    (hds : (lispexer_next l).ds = []) :
    main_loop (fuel + 1) l ast = Outcome.ok (lispexer_next l, ast) := by
  rw [main_loop]
  simp [hds]

/-! ## Lexer and classifier: the claims -/

/-- C9 (the code departs from the claim). A newline between two words does
not separate them: the newline branch of the loop (main.c 59-62) comes first
in the `else if` chain, so the whitespace branch (main.c 91-101) is never
reached for it, and the text `a`, LF, `b` is lexed as the single lexeme `ab`. -/
theorem newline_does_not_separate :
    (lispexer_next (lispexer_from_dstring ['a', '\n', 'b'])).ds = ['a', 'b'] ∧
    (lispexer_next (lispexer_next (lispexer_from_dstring ['a', '\n', 'b']))).ds = [] := by
  decide

/-- C10 (the claim as stated fails). The source text of 7 characters quote,
`a`, `b`, backslash, quote, `c`, quote is lexed as one lexeme and classified
as a string token of 5 characters, the backslash included; the value the
specification expects, `unescape` of the body, has 4 characters. -/
theorem string_escape_not_consumed :
    to_ltoken (lispexer_next (lispexer_from_dstring
        ['\"', 'a', 'b', '\\', '\"', 'c', '\"'])).ds 0 7
      = some { tok := Token.TOKEN_STRING ['a', 'b', '\\', '\"', 'c'], line := 0, idx := 7 } ∧
    unescape ['a', 'b', '\\', '\"', 'c'] = ['a', 'b', '\"', 'c'] ∧
    ['a', 'b', '\\', '\"', 'c'] ≠ unescape ['a', 'b', '\\', '\"', 'c'] := by
  decide

/-- C10, as amended. For every body made of units (a character other than the
quote, the backslash, LF and NUL, or a backslash followed by a character other
than LF and NUL), the text quote, body, quote is lexed as one lexeme, the
whole text, the next call returns the empty lexeme, and the lexeme is
classified as the string token whose value is the body as written, every
backslash kept and the two delimiting quotes stripped; the tree built from
the text is that single leaf. -/
theorem string_literal_value (body : List Char) (hb : is_string_body body = true) :
    (lispexer_next (lispexer_from_dstring ('\"' :: (body ++ ['\"'])))).ds
      = '\"' :: (body ++ ['\"']) ∧
    (lispexer_next (lispexer_next (lispexer_from_dstring ('\"' :: (body ++ ['\"']))))).ds
      = [] ∧
    to_ltoken ('\"' :: (body ++ ['\"'])) 0 (body.length + 2)
      = some { tok := Token.TOKEN_STRING body, line := 0, idx := body.length + 2 } ∧
    build_ast ('\"' :: (body ++ ['\"']))
      = Outcome.ok
          [AObj.ALToken { tok := Token.TOKEN_STRING body, line := 0, idx := body.length + 2 }] := by
  have h1 := lispexer_next_string (lispexer_from_dstring ('\"' :: (body ++ ['\"']))) body [] hb
    (by simp [lispexer_from_dstring])
  have ht := to_ltoken_string body (is_string_body_no_nul body hb) 0 (body.length + 2)
  have h2 : (lispexer_next (lispexer_next
      (lispexer_from_dstring ('\"' :: (body ++ ['\"']))))).ds = [] := by
    rw [h1, lispexer_next_eof _ (by simp [lispexer_from_dstring])]
  refine ⟨by rw [h1], h2, ht, ?_⟩
  unfold build_ast
  rw [main_loop_step _ _ _ _ (by rw [h1]; simp) (by rw [h1]; simpa [lispexer_from_dstring] using ht)]
  have hlen : ('\"' :: (body ++ ['\"'])).length = (body.length + 1) + 1 := by simp
  rw [hlen, main_loop_stop _ _ _ h2]
  rfl

/-- C10 as amended, witness: the source text quote, `a`, `b`, backslash,
quote, `c`, quote yields the single string token `ab`, backslash, quote, `c`. -/
theorem string_literal_value_witness :
    is_string_body ['a', 'b', '\\', '\"', 'c'] = true ∧
    build_ast ['\"', 'a', 'b', '\\', '\"', 'c', '\"']
      = Outcome.ok
          [AObj.ALToken { tok := Token.TOKEN_STRING ['a', 'b', '\\', '\"', 'c'],
                          line := 0, idx := 7 }] :=
  ⟨by decide, (string_literal_value ['a', 'b', '\\', '\"', 'c'] (by decide)).2.2.2⟩

/-! ## Decimal literals -/

theorem digitChar_numeric (d : Nat) (hd : d < 10) :
    is_numeric (Nat.digitChar d) = true ∧ (Nat.digitChar d).toNat - 48 = d := by
  interval_cases d <;> decide

theorem is_numeric_word_char (c : Char) (hc : is_numeric c = true) :
    is_word_char c = true ∧ c ≠ '\"' := by
  have key : ∀ d : Char, is_numeric d = true →
      d ≠ '\n' ∧ d ≠ '\"' ∧ d ≠ ' ' ∧ d ≠ '\r' ∧ d ≠ '(' ∧ d ≠ ')' := by
    intro d hd
    refine ⟨?_, ?_, ?_, ?_, ?_, ?_⟩ <;> (rintro rfl; revert hd; decide)
  exact ⟨(is_word_char_iff c).2 (key c hc), (key c hc).2.1⟩

/-- The digits that `Nat.toDigitsCore` puts in front of its accumulator: a
non-empty run of decimal digits that `atoi_digits` reads back as `n`. -/
theorem toDigitsCore_digits (fuel : Nat) :
    ∀ (n : Nat) (ds : List Char), n < fuel →
      ∃ pre : List Char, Nat.toDigitsCore 10 fuel n ds = pre ++ ds ∧ pre ≠ [] ∧
        (∀ c ∈ pre, is_numeric c = true) ∧
        ∀ rest : List Char, atoi_digits (pre ++ rest) 0 = atoi_digits rest n := by
  induction fuel with
  | zero => intro n ds h; omega
  | succ fuel ih =>
    intro n ds h
    obtain ⟨hnum, hval⟩ := digitChar_numeric (n % 10) (Nat.mod_lt n (by decide))
    by_cases h0 : n / 10 = 0
    · refine ⟨[Nat.digitChar (n % 10)], by simp [Nat.toDigitsCore, h0], by simp, ?_, ?_⟩
      · intro c hc
        simp only [List.mem_singleton] at hc
        rw [hc]; exact hnum
      · intro rest
        have hn : n % 10 = n := by omega
        simp only [List.singleton_append, atoi_digits, hnum, if_true, hval]
        rw [hn]; simp
    · obtain ⟨pre, hpre, hne, hall, hatoi⟩ := ih (n / 10) (Nat.digitChar (n % 10) :: ds)
        (by omega)
      refine ⟨pre ++ [Nat.digitChar (n % 10)], ?_, by simp, ?_, ?_⟩
      · simp [Nat.toDigitsCore, h0, hpre]
      · intro c hc
        simp only [List.mem_append, List.mem_singleton] at hc
        rcases hc with hc | rfl
        · exact hall c hc
        · exact hnum
      · intro rest
        rw [List.append_assoc, hatoi]
        simp only [List.singleton_append, atoi_digits, hnum, if_true, hval]
        congr 1
        omega

theorem decimal_digits (n : Nat) :
    decimal n ≠ [] ∧ (∀ c ∈ decimal n, is_numeric c = true) ∧
    atoi_digits (decimal n) 0 = n := by
  obtain ⟨pre, hpre, hne, hall, hatoi⟩ := toDigitsCore_digits (n + 1) n [] (Nat.lt_succ_self n)
  have hd : decimal n = pre := by
    unfold decimal Nat.toDigits
    rw [hpre, List.append_nil]
  rw [hd]
  refine ⟨hne, hall, ?_⟩
  have := hatoi []
  simpa [atoi_digits] using this

theorem decimal_word (n : Nat) : ∀ c ∈ decimal n, is_word_char c = true :=
  fun c hc => (is_numeric_word_char c ((decimal_digits n).2.1 c hc)).1

/-- The decimal literal of a number below `2^31` is classified as the integer
token of that number. -/
theorem to_ltoken_decimal (n : Nat) (hn : n < 2147483648) (line idx : Nat) :
    to_ltoken (decimal n) line idx
      = some { tok := Token.TOKEN_INT (n : Int), line := line, idx := idx } := by
  obtain ⟨hne, hall, hatoi⟩ := decimal_digits n
  cases hd : decimal n with
  | nil => exact absurd hd hne
  | cons c0 tl =>
    have hc0 : is_numeric c0 = true := hall c0 (by rw [hd]; exact List.mem_cons_self c0 tl)
    have hq : c0 ≠ '\"' := (is_numeric_word_char c0 hc0).2
    rw [hd] at hatoi
    have ha : atoi (c0 :: tl) = (n : Int) := by
      rw [atoi_of_range _ (by rw [hatoi]; exact hn), hatoi]
    simp [to_ltoken, hq, hc0, ha]

/-! ## Tree builder: appending inside an open list -/

theorem last_is_end_leaf (init : AST) (lt : LToken) :
    last_is_end (init ++ [AObj.ALToken lt]) = false := by
  simp [last_is_end]

theorem ast_append_node_after_leaf (init : AST) (lt : LToken) (node : AObj) :
    ast_append_node (init ++ [AObj.ALToken lt]) node = init ++ [AObj.ALToken lt, node] := by
  induction init with
  | nil => simp [ast_append_node]
  | cons x init ih =>
    cases init with
    | nil => simp [ast_append_node]
    | cons y init =>
      rw [List.cons_append, List.cons_append, ast_append_node, ← List.cons_append, ih]
      simp

/-- In a root whose only child is an open list ending in a leaf, a node is
appended at the end of that list. -/
theorem ast_append_node_open (init : AST) (lt : LToken) (node : AObj) :
    ast_append_node [AObj.AAst (init ++ [AObj.ALToken lt])] node
      = [AObj.AAst (init ++ [AObj.ALToken lt] ++ [node])] := by
  rw [ast_append_node, if_neg (by simp [last_is_end_leaf]), ast_append_node_after_leaf]
  simp

/-! ## Driver: the text `(+ n1 ... nk)` -/

theorem drop_head_add (cs : List Char) (h k : Nat) (u rest : List Char)
    (hd : cs.drop h = u ++ rest) (hk : k = u.length) : cs.drop (h + k) = rest := by
  rw [← List.drop_drop, hd, hk, List.drop_left]

theorem to_ltoken_cparen (line idx : Nat) :
    to_ltoken [')'] line idx
      = some { tok := Token.TOKEN_SYNTAX SyntaxKind.SYNTAX_CPAREN, line := line, idx := idx } := by
  simp [to_ltoken, is_numeric, cstr, NUL]

/-- The loop of `main` from the start of an operand of `(+ n1 ... nk)`, inside
the open list: the remaining operands are appended as integer leaves, then
the end marker, and the loop stops. -/
theorem main_loop_operands (ns : List Nat) :
    ∀ (n fuel : Nat) (l : Lispexer) (init : AST) (lt : LToken),
      (∀ m ∈ n :: ns, m < 2147483648) →
      l.contents.drop l.head = decimal n ++ (operands_text ns ++ [')']) →
      (l.contents.drop l.head).length < fuel →
      ∃ (ops : AST) (l' : Lispexer),
        List.Forall₂ is_int_leaf ops (n :: ns) ∧
        main_loop fuel l [AObj.AAst (init ++ [AObj.ALToken lt])]
          = Outcome.ok (l', [AObj.AAst (init ++ [AObj.ALToken lt] ++ ops ++ [AObj.AEnd])]) := by
  induction ns with
  | nil =>
    intro n fuel l init lt hr hdrop hfuel
    obtain ⟨hne, _, _⟩ := decimal_digits n
    have hlen : 0 < (decimal n).length := List.length_pos.2 hne
    simp only [operands_text, List.nil_append] at hdrop
    rw [hdrop, List.length_append, List.length_singleton] at hfuel
    obtain ⟨f, rfl⟩ : ∃ f, fuel = f + 3 := ⟨fuel - 3, by omega⟩
    have h1 := lispexer_next_word_paren l (decimal n) [] ')' (decimal_word n) hne
      (Or.inr rfl) hdrop
    have ht1 := to_ltoken_decimal n (hr n (List.mem_cons_self n [])) l.pos_line
      (l.pos_idx + (decimal n).length)
    rw [main_loop_step (f + 2) l _ _ (by rw [h1]; exact hne) (by rw [h1]; exact ht1), h1]
    have hdrop2 := drop_head_add l.contents l.head (decimal n).length (decimal n) [')']
      hdrop rfl
    have h2 := lispexer_next_paren
      { l with ds := decimal n, head := l.head + (decimal n).length,
               pos_idx := l.pos_idx + (decimal n).length,
               old_head := l.head, old_pos_idx := l.pos_idx, old_pos_line := l.pos_line }
      [] ')' (Or.inr rfl) hdrop2
    rw [main_loop_step (f + 1) _ _ _ (by rw [h2]; simp)
      (by rw [h2]; exact to_ltoken_cparen _ _), h2]
    have hdrop3 := drop_head_add l.contents (l.head + (decimal n).length) 1 [')'] []
      hdrop2 rfl
    rw [main_loop_stop f _ _ (by rw [lispexer_next_eof _ hdrop3])]
    simp only [ast_append_ltoken, ast_append_node_open]
    exact ⟨[int_leaf (n : Int) l.pos_line (l.pos_idx + (decimal n).length)], _,
      List.Forall₂.cons ⟨_, _, rfl⟩ List.Forall₂.nil, rfl⟩
  | cons m ns ih =>
    intro n fuel l init lt hr hdrop hfuel
    obtain ⟨hne, _, _⟩ := decimal_digits n
    have hlen : 0 < (decimal n).length := List.length_pos.2 hne
    have hdrop1 : l.contents.drop l.head
        = decimal n ++ ' ' :: (decimal m ++ (operands_text ns ++ [')'])) := by
      rw [hdrop]; simp [operands_text]
    rw [hdrop1, List.length_append, List.length_cons] at hfuel
    obtain ⟨f, rfl⟩ : ∃ f, fuel = f + 1 := ⟨fuel - 1, by omega⟩
    have h1 := lispexer_next_word_blank l (decimal n) _ ' ' (decimal_word n) hne
      (Or.inl rfl) hdrop1
    have ht1 := to_ltoken_decimal n (hr n (List.mem_cons_self n _)) l.pos_line
      (l.pos_idx + (decimal n).length + 1)
    rw [main_loop_step f l _ _ (by rw [h1]; exact hne) (by rw [h1]; exact ht1), h1]
    have hdrop2 : l.contents.drop (l.head + (decimal n).length + 1)
        = decimal m ++ (operands_text ns ++ [')']) := by
      rw [Nat.add_assoc]
      exact drop_head_add l.contents l.head _ (decimal n ++ [' ']) _
        (by rw [hdrop1]; simp) (by simp)
    obtain ⟨ops, l', hops, hrun⟩ := ih m f
      { l with ds := decimal n, head := l.head + (decimal n).length + 1,
               pos_idx := l.pos_idx + (decimal n).length + 1,
               old_head := l.head, old_pos_idx := l.pos_idx, old_pos_line := l.pos_line }
      (init ++ [AObj.ALToken lt])
      { tok := Token.TOKEN_INT (n : Int), line := l.pos_line,
        idx := l.pos_idx + (decimal n).length + 1 }
      (fun k hk => hr k (List.mem_cons_of_mem n hk)) hdrop2
      (by
        show (l.contents.drop (l.head + (decimal n).length + 1)).length < f
        rw [hdrop2]
        simp only [List.length_append] at hfuel ⊢
        omega)
    refine ⟨int_leaf (n : Int) l.pos_line (l.pos_idx + (decimal n).length + 1) :: ops, l',
      List.Forall₂.cons ⟨_, _, rfl⟩ hops, ?_⟩
    simp only [ast_append_ltoken, ast_append_node_open]
    rw [hrun]
    simp [int_leaf]

theorem operand_value_of_int_leaves (ops : AST) (ns : List Nat)
    (h : List.Forall₂ is_int_leaf ops ns) :
    List.Forall₂ operand_value ops (ns.map Int.ofNat) := by
  induction h with
  | nil => exact List.Forall₂.nil
  | cons hob _ ih =>
    obtain ⟨line, idx, rfl⟩ := hob
    exact List.Forall₂.cons (Or.inl ⟨line, idx, rfl⟩) ih

theorem sum_map_ofNat (ns : List Nat) : (ns.map Int.ofNat).sum = ((ns.sum : Nat) : Int) := by
  induction ns with
  | nil => rfl
  | cons n ns ih => simp [List.sum_cons, ih]

theorem int_leaves_length (ops : AST) (ns : List Nat) (h : List.Forall₂ is_int_leaf ops ns) :
    ops.length = ns.length :=
  List.Forall₂.length_eq h

theorem build_ast_of_main_loop (contents : List Char) (l' : Lispexer) (ast : AST)
    (h : main_loop (contents.length + 1) (lispexer_from_dstring contents) []
      = Outcome.ok (l', ast)) :
    build_ast contents = Outcome.ok ast := by
  unfold build_ast
  rw [h]

/-- The tree built from `(+ n1 ... nk)`. -/
theorem build_ast_sum_source (n : Nat) (ns : List Nat)
    (hr : ∀ m ∈ n :: ns, m < 2147483648) :
    ∃ ops : AST, List.Forall₂ is_int_leaf ops (n :: ns) ∧
      build_ast (sum_source (n :: ns))
        = Outcome.ok [AObj.AAst (ident_leaf ['+'] 0 3 :: (ops ++ [AObj.AEnd]))] := by
  have hsrc : sum_source (n :: ns)
      = '(' :: '+' :: ' ' :: (decimal n ++ (operands_text ns ++ [')'])) := by
    simp [sum_source, operands_text]
  have hlen : (sum_source (n :: ns)).length
      = (decimal n ++ (operands_text ns ++ [')'])).length + 1 + 1 + 1 := by
    rw [hsrc]; simp
  have h1 := lispexer_next_paren (lispexer_from_dstring (sum_source (n :: ns)))
    ('+' :: ' ' :: (decimal n ++ (operands_text ns ++ [')']))) '(' (Or.inl rfl)
    (by rw [hsrc]; rfl)
  have h2 := lispexer_next_word_blank
    { lispexer_from_dstring (sum_source (n :: ns)) with
        ds := ['('], head := (lispexer_from_dstring (sum_source (n :: ns))).head + 1,
        pos_idx := (lispexer_from_dstring (sum_source (n :: ns))).pos_idx + 1,
        old_head := (lispexer_from_dstring (sum_source (n :: ns))).head,
        old_pos_idx := (lispexer_from_dstring (sum_source (n :: ns))).pos_idx,
        old_pos_line := (lispexer_from_dstring (sum_source (n :: ns))).pos_line }
    ['+'] (decimal n ++ (operands_text ns ++ [')'])) ' ' (by decide) (by simp) (Or.inl rfl)
    (by rw [hsrc]; rfl)
  obtain ⟨ops, l', hops, hrun⟩ := main_loop_operands ns n
    ((decimal n ++ (operands_text ns ++ [')'])).length + 1 + 1)
    { lispexer_from_dstring (sum_source (n :: ns)) with
        ds := ['+'], head := 3, pos_idx := 3, old_head := 1, old_pos_idx := 1,
        old_pos_line := 0 }
    [] { tok := Token.TOKEN_IDENT ['+'], line := 0, idx := 3 } hr
    (by rw [hsrc]; rfl)
    (by
      show (List.drop 3 (lispexer_from_dstring (sum_source (n :: ns))).contents).length < _
      rw [hsrc]
      simp only [lispexer_from_dstring, List.drop_succ_cons, List.drop_zero, List.length_append]
      omega)
  refine ⟨ops, hops, ?_⟩
  have e1 := main_loop_step ((decimal n ++ (operands_text ns ++ [')'])).length + 1 + 1 + 1)
    (lispexer_from_dstring (sum_source (n :: ns))) []
    { tok := Token.TOKEN_SYNTAX SyntaxKind.SYNTAX_OPAREN, line := 0, idx := 1 }
    (by rw [h1]; simp) (by rw [h1]; rfl)
  have e2 := main_loop_step ((decimal n ++ (operands_text ns ++ [')'])).length + 1 + 1)
    (lispexer_next (lispexer_from_dstring (sum_source (n :: ns))))
    [AObj.AAst []]
    { tok := Token.TOKEN_IDENT ['+'], line := 0, idx := 3 }
    (by rw [h1, h2]; simp) (by rw [h1, h2]; rfl)
  rw [show ast_append_ltoken []
      { tok := Token.TOKEN_SYNTAX SyntaxKind.SYNTAX_OPAREN, line := 0, idx := 1 }
      = [AObj.AAst []] from rfl] at e1
  rw [show ast_append_ltoken [AObj.AAst []] { tok := Token.TOKEN_IDENT ['+'], line := 0, idx := 3 }
      = [AObj.AAst [AObj.ALToken { tok := Token.TOKEN_IDENT ['+'], line := 0, idx := 3 }]]
      from rfl] at e2
  have e3 : main_loop ((decimal n ++ (operands_text ns ++ [')'])).length + 1 + 1)
      (lispexer_next (lispexer_next (lispexer_from_dstring (sum_source (n :: ns)))))
      [AObj.AAst [AObj.ALToken { tok := Token.TOKEN_IDENT ['+'], line := 0, idx := 3 }]]
      = Outcome.ok (l', [AObj.AAst (ident_leaf ['+'] 0 3 :: (ops ++ [AObj.AEnd]))]) := by
    rw [h1, h2]
    simpa [ident_leaf] using hrun
  exact build_ast_of_main_loop _ l' _ (by rw [hlen]; exact e1.trans (e2.trans e3))

/-- C1. For every non-empty list of natural numbers `n1..nk`, each below
`2^31` and with a sum below `2^31`, the loop of `main` (lexer, classifier and
tree builder) on the text `(+ n1 ... nk)` yields a root whose only child is
the list `[Ident "+", Int n1, ..., Int nk, EndMarker]`, and evaluating that
child yields the leaf `Int(n1 + ... + nk)`, a token of kind Int at line 0,
idx 0. -/
theorem sum_end_to_end (ns : List Nat) (hne : ns ≠ [])
    (hrange : ∀ n ∈ ns, n < 2147483648) (hsum : ns.sum < 2147483648) :
    ∃ ops : AST, List.Forall₂ is_int_leaf ops ns ∧
      build_ast (sum_source ns)
        = Outcome.ok [AObj.AAst (ident_leaf ['+'] 0 3 :: (ops ++ [AObj.AEnd]))] ∧
      traverse_ast_rec (ident_leaf ['+'] 0 3 :: (ops ++ [AObj.AEnd]))
        = some (int_leaf (ns.sum : Int) 0 0) ∧
      main_result [AObj.AAst (ident_leaf ['+'] 0 3 :: (ops ++ [AObj.AEnd]))]
        = some (int_leaf (ns.sum : Int) 0 0) := by
  cases ns with
  | nil => exact absurd rfl hne
  | cons n ns =>
    obtain ⟨ops, hops, hbuild⟩ := build_ast_sum_source n ns hrange
    have hlen : 2 ≤ (ops ++ [AObj.AEnd]).length := by
      have := int_leaves_length ops (n :: ns) hops
      simp only [List.length_append, List.length_cons, List.length_nil] at this ⊢
      omega
    have heval : traverse_ast_rec (ident_leaf ['+'] 0 3 :: (ops ++ [AObj.AEnd]))
        = some (int_leaf (((n :: ns).sum : Nat) : Int) 0 0) := by
      rw [traverse_ast_rec_plus 0 3 _ hlen,
        traverse_plus_sum ops _ (operand_value_of_int_leaves ops (n :: ns) hops) 0,
        sum_map_ofNat]
      have hw : wrap_int (((0 : Nat) : Int) + (((n :: ns).sum : Nat) : Int))
          = (((n :: ns).sum : Nat) : Int) := by
        rw [wrap_int_of_range] <;> omega
      rw [hw, int_result_eq_int_leaf]
    exact ⟨ops, hops, hbuild, heval, heval⟩

/-- C1, witness: the text `(+ 1 2 3)` gives the tree
`List[Ident("+"), Int(1), Int(2), Int(3), EndMarker]`, which evaluates to
`Int(6)`. -/
theorem sum_end_to_end_witness :
    sum_source [1, 2, 3] = ['(', '+', ' ', '1', ' ', '2', ' ', '3', ')'] ∧
    build_ast ['(', '+', ' ', '1', ' ', '2', ' ', '3', ')']
      = Outcome.ok [AObj.AAst [ident_leaf ['+'] 0 3, int_leaf 1 0 5, int_leaf 2 0 7,
          int_leaf 3 0 8, AObj.AEnd]] ∧
    traverse_ast_rec [ident_leaf ['+'] 0 3, int_leaf 1 0 5, int_leaf 2 0 7,
        int_leaf 3 0 8, AObj.AEnd]
      = some (AObj.ALToken { tok := Token.TOKEN_INT 6, line := 0, idx := 0 }) ∧
    ∃ ops : AST, List.Forall₂ is_int_leaf ops [1, 2, 3] ∧
      build_ast (sum_source [1, 2, 3])
        = Outcome.ok [AObj.AAst (ident_leaf ['+'] 0 3 :: (ops ++ [AObj.AEnd]))] ∧
      traverse_ast_rec (ident_leaf ['+'] 0 3 :: (ops ++ [AObj.AEnd]))
        = some (int_leaf (([1, 2, 3] : List Nat).sum : Int) 0 0) ∧
      main_result [AObj.AAst (ident_leaf ['+'] 0 3 :: (ops ++ [AObj.AEnd]))]
        = some (int_leaf (([1, 2, 3] : List Nat).sum : Int) 0 0) :=
  ⟨by decide, rfl, rfl, sum_end_to_end [1, 2, 3] (by decide) (by decide) (by decide)⟩

/-! ## Classifier: the claims -/

theorem atoi_digits_snoc (run : List Char) (hrun : ∀ c ∈ run, is_numeric c = true) (c : Char)
    (hc : is_numeric c = true) :
    ∀ acc : Nat, atoi_digits (run ++ [c]) acc = atoi_digits run acc * 10 + (c.toNat - 48) := by
  induction run with
  | nil => intro acc; simp [atoi_digits, hc]
  | cons d run ih =>
    intro acc
    have hd : is_numeric d = true := hrun d (List.mem_cons_self d run)
    simp only [List.cons_append, atoi_digits, hd, if_true]
    exact ih (fun e he => hrun e (List.mem_cons_of_mem d he)) _

/-- On a text made of digits only the loop of `atoi` computes the number the
text denotes. -/
theorem atoi_digits_value (run : List Char) (hrun : ∀ c ∈ run, is_numeric c = true) :
    atoi_digits run 0 = decimal_value run := by
  induction run using List.reverseRecOn with
  | nil => simp [atoi_digits, decimal_value]
  | append_singleton run c ih =>
    have hc : is_numeric c = true := hrun c (by simp)
    have hr : ∀ d ∈ run, is_numeric d = true := fun d hd => hrun d (by simp [hd])
    rw [atoi_digits_snoc run hr c hc, ih hr]
    simp [decimal_value, Nat.ofDigits_cons]
    ring

/-- The loop of `atoi` stops at the first character that is not a digit. -/
theorem atoi_digits_run (run rest : List Char) (hrun : ∀ c ∈ run, is_numeric c = true)
    (hrest : rest = [] ∨ ∃ c tl, rest = c :: tl ∧ is_numeric c = false) :
    ∀ acc : Nat, atoi_digits (run ++ rest) acc = atoi_digits run acc := by
  induction run with
  | nil =>
    intro acc
    rcases hrest with rfl | ⟨c, tl, rfl, hc⟩
    · rfl
    · simp [atoi_digits, hc]
  | cons d run ih =>
    intro acc
    have hd : is_numeric d = true := hrun d (List.mem_cons_self d run)
    simp only [List.cons_append, atoi_digits, hd, if_true]
    exact ih (fun e he => hrun e (List.mem_cons_of_mem d he)) _

theorem is_numeric_not_quote (c : Char) (hc : is_numeric c = true) : c ≠ '\"' :=
  (is_numeric_word_char c hc).2

theorem to_ltoken_digits (run rest : List Char) (line idx : Nat) (hne : run ≠ [])
    (hrun : ∀ c ∈ run, is_numeric c = true)
    (hrest : rest = [] ∨ ∃ c tl, rest = c :: tl ∧ is_numeric c = false)
    (hv : decimal_value run < 2147483648) :
    to_ltoken (run ++ rest) line idx
      = some { tok := Token.TOKEN_INT (decimal_value run : Int), line := line, idx := idx } := by
  have hval : atoi_digits (run ++ rest) 0 = decimal_value run := by
    rw [atoi_digits_run run rest hrun hrest, atoi_digits_value run hrun]
  cases run with
  | nil => exact absurd rfl hne
  | cons c0 tl =>
    have hc0 : is_numeric c0 = true := hrun c0 (List.mem_cons_self c0 tl)
    have hq : c0 ≠ '\"' := is_numeric_not_quote c0 hc0
    rw [List.cons_append] at hval ⊢
    have ha : atoi (c0 :: (tl ++ rest)) = (decimal_value (c0 :: tl) : Int) := by
      rw [atoi_of_range _ (by rw [hval]; exact hv), hval]
    simp [to_ltoken, hq, hc0, ha]

theorem to_ltoken_quoted (tl : List Char) (line idx : Nat) (hne : tl ≠ [])
    (hnul : ∀ c ∈ tl, c ≠ NUL) :
    to_ltoken ('\"' :: tl) line idx
      = some { tok := Token.TOKEN_STRING tl.dropLast, line := line, idx := idx } := by
  have hlen : 0 < tl.length := List.length_pos.2 hne
  have h2 : ¬ (tl.length + 1 < 2) := by omega
  simp only [to_ltoken, if_true, List.length_cons, h2, if_false, cstr_of_no_nul tl hnul]
  rw [if_pos (by omega), List.dropLast_eq_take]
  congr 3

/-- C15. The empty lexeme and the lexeme made of one quote are classified as
Malformed; for every text `s` without NUL the lexeme quote, `s`, quote is
classified as the string token of `s` (two quotes give the empty string), and
more generally a lexeme of at least two characters without NUL that starts
with a quote gives the string token of the lexeme without its first and last
character, with the line and idx passed in. -/
theorem to_ltoken_string_lexemes :
    (∀ line idx, to_ltoken [] line idx = some LToken_malformed) ∧
    (∀ line idx, to_ltoken ['\"'] line idx = some LToken_malformed) ∧
    (∀ (s : List Char) (line idx : Nat), (∀ c ∈ s, c ≠ NUL) →
      to_ltoken ('\"' :: (s ++ ['\"'])) line idx
        = some { tok := Token.TOKEN_STRING s, line := line, idx := idx }) ∧
    (∀ (tl : List Char) (line idx : Nat), tl ≠ [] → (∀ c ∈ tl, c ≠ NUL) →
      to_ltoken ('\"' :: tl) line idx
        = some { tok := Token.TOKEN_STRING tl.dropLast, line := line, idx := idx }) ∧
    to_ltoken ['\"', '\"'] 0 2 = some { tok := Token.TOKEN_STRING [], line := 0, idx := 2 } := by
  refine ⟨fun _ _ => rfl, fun _ _ => rfl, fun s line idx h => to_ltoken_string s h line idx,
    fun tl line idx hne h => to_ltoken_quoted tl line idx hne h, by decide⟩

/-- C15, witness: the lexeme quote, `a`, `b`, quote is classified as the
string token `ab`. -/
theorem to_ltoken_string_lexemes_witness :
    (∀ c ∈ ['a', 'b'], c ≠ NUL) ∧
    to_ltoken ['\"', 'a', 'b', '\"'] 3 7
      = some { tok := Token.TOKEN_STRING ['a', 'b'], line := 3, idx := 7 } :=
  ⟨by decide, to_ltoken_string_lexemes.2.2.1 ['a', 'b'] 3 7 (by decide)⟩

/-- A text splits into its longest leading run of digits and a remainder that
is empty or starts with a character that is not a digit. -/
theorem digit_run_split (ds : List Char) :
    ∃ run rest : List Char, ds = run ++ rest ∧ (∀ c ∈ run, is_numeric c = true) ∧
      (rest = [] ∨ ∃ c r, rest = c :: r ∧ is_numeric c = false) := by
  induction ds with
  | nil => exact ⟨[], [], rfl, by simp, Or.inl rfl⟩
  | cons d ds ih =>
    by_cases hd : is_numeric d = true
    · obtain ⟨run, rest, h1, h2, h3⟩ := ih
      refine ⟨d :: run, rest, by simp [h1], ?_, h3⟩
      intro c hc
      rcases List.mem_cons.1 hc with rfl | hc
      · exact hd
      · exact h2 c hc
    · exact ⟨[], d :: ds, rfl, by simp, Or.inr ⟨d, ds, rfl, by simpa using hd⟩⟩

/-- The leading run of digits of a text that starts with a digit is not
empty. -/
theorem digit_run_ne_nil (c0 : Char) (tl run rest : List Char) (hc0 : is_numeric c0 = true)
    (hsplit : c0 :: tl = run ++ rest)
    (hrest : rest = [] ∨ ∃ c r, rest = c :: r ∧ is_numeric c = false) : run ≠ [] := by
  rintro rfl
  rcases hrest with rfl | ⟨c, r, rfl, hc⟩
  · simp at hsplit
  · simp only [List.nil_append, List.cons.injEq] at hsplit
    rw [hsplit.1, hc] at hc0
    exact Bool.noConfusion hc0

/-- A lexeme that starts with a digit is classified as an Int token whose
value is the result of `atoi`. -/
theorem to_ltoken_numeric (c0 : Char) (tl : List Char) (line idx : Nat)
    (hc0 : is_numeric c0 = true) :
    to_ltoken (c0 :: tl) line idx
      = some { tok := Token.TOKEN_INT (atoi (c0 :: tl)), line := line, idx := idx } := by
  have hq : c0 ≠ '\"' := is_numeric_not_quote c0 hc0
  simp [to_ltoken, hq, hc0]

/-- C16 (the claim as stated fails). The lexeme `2147483648a` starts with a
digit and its longest leading run of digits denotes `2^31`.  `to_ltoken`
returns an Int token, yet its value is not the number the run denotes: the
payload is a 32-bit `int`, here `-2147483648`. -/
theorem integer_run_out_of_range :
    decimal_value ['2', '1', '4', '7', '4', '8', '3', '6', '4', '8'] = 2147483648 ∧
    to_ltoken ['2', '1', '4', '7', '4', '8', '3', '6', '4', '8', 'a'] 0 11
      = some { tok := Token.TOKEN_INT (-2147483648), line := 0, idx := 11 } ∧
    (-2147483648 : Int) ≠ 2147483648 := by
  refine ⟨by simp [decimal_value, Nat.ofDigits], by decide, by decide⟩

/-- C16, as amended. Every lexeme that starts with an ASCII digit is
classified as an Int token, with the line and idx passed in, whose value is a
32-bit `int`.  The lexeme splits into its longest leading run of digits and a
remainder; when the run denotes a number below `2^31` the value of the token
is that number, whether the lexeme consists of the digits only or other
characters follow them; when the run denotes `2^31` or more the value of the
token is not that number. -/
theorem to_ltoken_integers (c0 : Char) (tl : List Char) (line idx : Nat)
    (hc0 : is_numeric c0 = true) :
    (∃ v : Int, -2147483648 ≤ v ∧ v < 2147483648 ∧
      to_ltoken (c0 :: tl) line idx
        = some { tok := Token.TOKEN_INT v, line := line, idx := idx }) ∧
    (∃ run rest : List Char, c0 :: tl = run ++ rest ∧ run ≠ [] ∧
      (∀ c ∈ run, is_numeric c = true) ∧
      (rest = [] ∨ ∃ c r, rest = c :: r ∧ is_numeric c = false)) ∧
    (∀ run rest : List Char, c0 :: tl = run ++ rest →
      (∀ c ∈ run, is_numeric c = true) →
      (rest = [] ∨ ∃ c r, rest = c :: r ∧ is_numeric c = false) →
      (decimal_value run < 2147483648 →
        to_ltoken (c0 :: tl) line idx
          = some { tok := Token.TOKEN_INT (decimal_value run : Int),
                   line := line, idx := idx }) ∧
      (2147483648 ≤ decimal_value run →
        to_ltoken (c0 :: tl) line idx
          ≠ some { tok := Token.TOKEN_INT (decimal_value run : Int),
                   line := line, idx := idx })) := by
  refine ⟨⟨atoi (c0 :: tl), (atoi_range _).1, (atoi_range _).2,
    to_ltoken_numeric c0 tl line idx hc0⟩, ?_, ?_⟩
  · obtain ⟨run, rest, hsplit, hrun, hrest⟩ := digit_run_split (c0 :: tl)
    exact ⟨run, rest, hsplit, digit_run_ne_nil c0 tl run rest hc0 hsplit hrest, hrun, hrest⟩
  · intro run rest hsplit hrun hrest
    have hne : run ≠ [] := digit_run_ne_nil c0 tl run rest hc0 hsplit hrest
    refine ⟨fun hv => ?_, fun hv heq => ?_⟩
    · rw [hsplit]
      exact to_ltoken_digits run rest line idx hne hrun hrest hv
    · rw [to_ltoken_numeric c0 tl line idx hc0] at heq
      have hval : atoi (c0 :: tl) = (decimal_value run : Int) := by
        simpa using congrArg (fun o => o.map (fun t => t.tok)) heq
      have := (atoi_range (c0 :: tl)).2
      omega

/-- C16 as amended, witness: the lexeme `12ab` starts with the digit `1`, its
leading run of digits `12` denotes 12, and it is classified as `Int(12)`. -/
theorem to_ltoken_integers_witness :
    is_numeric '1' = true ∧
    decimal_value ['1', '2'] = 12 ∧
    to_ltoken ['1', '2', 'a', 'b'] 0 4
      = some { tok := Token.TOKEN_INT 12, line := 0, idx := 4 } :=
  ⟨by decide, by simp [decimal_value, Nat.ofDigits],
    ((to_ltoken_integers '1' ['2', 'a', 'b'] 0 4 (by decide)).2.2 ['1', '2'] ['a', 'b'] rfl
      (by decide) (Or.inr ⟨'a', ['b'], rfl, by decide⟩)).1
      (by simp [decimal_value, Nat.ofDigits])⟩

/-- C17 (the claim as stated fails). The lexeme `a`, NUL, `b` is classified
as the identifier `a`: `strdup` copies the accumulator as a C string, which
ends at the first NUL. -/
theorem ident_ends_at_nul :
    to_ltoken ['a', NUL, 'b'] 0 3 = some { tok := Token.TOKEN_IDENT ['a'], line := 0, idx := 3 } ∧
    ['a'] ≠ ['a', NUL, 'b'] := by
  decide

/-- C17, as amended. The lexeme `(` is classified as `Syntax(OpenParen)` and
the lexeme `)` as `Syntax(CloseParen)`; every other non-empty lexeme without
NUL whose first character is neither a quote nor an ASCII digit is classified
as the identifier whose payload is the lexeme unchanged; the token carries the
line and idx passed in. -/
theorem to_ltoken_syntax_ident :
    (∀ line idx, to_ltoken ['('] line idx
      = some { tok := Token.TOKEN_SYNTAX SyntaxKind.SYNTAX_OPAREN, line := line, idx := idx }) ∧
    (∀ line idx, to_ltoken [')'] line idx
      = some { tok := Token.TOKEN_SYNTAX SyntaxKind.SYNTAX_CPAREN, line := line, idx := idx }) ∧
    (∀ (c0 : Char) (tl : List Char) (line idx : Nat),
      (∀ c ∈ c0 :: tl, c ≠ NUL) → c0 ≠ '\"' → is_numeric c0 = false →
      c0 :: tl ≠ ['('] → c0 :: tl ≠ [')'] →
      to_ltoken (c0 :: tl) line idx
        = some { tok := Token.TOKEN_IDENT (c0 :: tl), line := line, idx := idx }) := by
  refine ⟨fun line idx => by simp [to_ltoken, is_numeric, cstr, NUL],
    fun line idx => to_ltoken_cparen line idx, ?_⟩
  intro c0 tl line idx hnul hq hnum ho hc
  have hcs := cstr_of_no_nul (c0 :: tl) hnul
  simp only [to_ltoken, hq, if_false, hnum, Bool.false_eq_true, hcs, ho, hc]

/-- C17 as amended, witness: the lexemes `-5`, `+` and `(a` are classified
as identifiers. -/
theorem to_ltoken_syntax_ident_witness :
    to_ltoken ['-', '5'] 1 2 = some { tok := Token.TOKEN_IDENT ['-', '5'], line := 1, idx := 2 } ∧
    to_ltoken ['+'] 0 3 = some { tok := Token.TOKEN_IDENT ['+'], line := 0, idx := 3 } ∧
    to_ltoken ['(', 'a'] 0 2 = some { tok := Token.TOKEN_IDENT ['(', 'a'], line := 0, idx := 2 } :=
  ⟨to_ltoken_syntax_ident.2.2 '-' ['5'] 1 2 (by decide) (by decide) (by decide) (by decide)
      (by decide),
    to_ltoken_syntax_ident.2.2 '+' [] 0 3 (by decide) (by decide) (by decide) (by decide)
      (by decide),
    to_ltoken_syntax_ident.2.2 '(' ['a'] 0 2 (by decide) (by decide) (by decide) (by decide)
      (by decide)⟩

/-! ## Tree builder: malformed tokens -/

theorem append_tokens_cons (ast : AST) (lt : LToken) (ts : List LToken) :
    append_tokens ast (lt :: ts) = append_tokens (ast_append_ltoken ast lt) ts :=
  rfl

theorem append_tokens_append (ast : AST) (ts us : List LToken) :
    append_tokens ast (ts ++ us) = append_tokens (append_tokens ast ts) us := by
  simp [append_tokens, List.foldl_append]

theorem ast_append_ltoken_malformed (ast : AST) (lt : LToken) (h : is_malformed lt = true) :
    ast_append_ltoken ast lt = ast := by
  obtain ⟨tok, line, idx⟩ := lt
  cases tok <;> simp [is_malformed] at h
  rfl

/-- C18. Appending a Malformed token leaves the tree unchanged, and the tree
built from a sequence of tokens is the tree built from the sequence without
its Malformed tokens. -/
theorem malformed_tokens_dropped :
    (∀ (ast : AST) (lt : LToken), is_malformed lt = true → ast_append_ltoken ast lt = ast) ∧
    (∀ (ts : List LToken) (ast : AST),
      append_tokens ast ts = append_tokens ast (ts.filter (fun lt => !is_malformed lt))) := by
  refine ⟨ast_append_ltoken_malformed, ?_⟩
  intro ts
  induction ts with
  | nil => intro ast; rfl
  | cons lt ts ih =>
    intro ast
    by_cases h : is_malformed lt = true
    · rw [append_tokens_cons, ast_append_ltoken_malformed ast lt h, ih]
      simp [h]
    · simp only [Bool.not_eq_true] at h
      rw [List.filter_cons_of_pos (by simp [h]), append_tokens_cons, append_tokens_cons, ih]

/-- C18, witness: a Malformed token between `(` and `7` changes nothing. -/
theorem malformed_tokens_dropped_witness :
    is_malformed LToken_malformed = true ∧
    ast_append_ltoken [AObj.AAst []] LToken_malformed = [AObj.AAst []] ∧
    append_tokens []
        [{ tok := Token.TOKEN_SYNTAX SyntaxKind.SYNTAX_OPAREN, line := 0, idx := 1 },
         LToken_malformed,
         { tok := Token.TOKEN_INT 7, line := 0, idx := 2 }]
      = [AObj.AAst [int_leaf 7 0 2]] :=
  ⟨rfl, malformed_tokens_dropped.1 [AObj.AAst []] LToken_malformed rfl, rfl⟩

/-! ## Lexer: the shape of a lexeme -/

/-- The accumulator after the scanning loop, when the loop is entered outside
a string with word characters accumulated, or inside a string with an
accumulator that starts with the quote. -/
theorem lispexer_scan_shape (rest : List Char) (l : Lispexer) (in_string escaping : Bool) :
    (in_string = false → escaping = false ∧ ∀ c ∈ l.ds, is_word_char c = true) →
    (in_string = true → l.ds.head? = some '\"') →
    ((lispexer_scan rest l in_string escaping).ds.head? = some '\"' ∨
     (lispexer_scan rest l in_string escaping).ds = ['('] ∨
     (lispexer_scan rest l in_string escaping).ds = [')'] ∨
     ∀ c ∈ (lispexer_scan rest l in_string escaping).ds, is_word_char c = true) := by
  induction rest, l, in_string, escaping using lispexer_scan.induct
  all_goals (unfold lispexer_scan; try simp only [*, if_true, if_false])
  all_goals simp_all [Lispexer.append, Lispexer.advance, is_word_char_iff]
  case case1 =>
    rename_i l is esc
    cases is <;> simp_all
  case case3 =>
    rename_i ch rest l0 is l hne ih
    cases is
    · simp_all
    · intro _ h2
      exact ih (by simp) (fun _ => Or.inl h2)
  case case14 =>
    rename_i ch rest l0 is esc l h1 h2 h3 h4 h5 h6 h7 h8 ih
    cases is
    · intro hw _
      simp only [is_whitespace, Bool.or_eq_false_iff, beq_eq_false_iff_ne, ne_eq] at h6
      simp_all
      apply ih
      intro c hc
      rcases hc with hc | rfl
      · exact hw c hc
      · simp_all
    · simp_all


/-- C11. Whatever the state, the lexeme that `lispexer_next` leaves in the
accumulator is empty, or starts with a quote, or is exactly `(` or exactly
`)`, or contains none of the characters space, CR, LF, `(`, `)` and quote.
A parenthesis met with an empty accumulator is returned as a one-character
lexeme, and a parenthesis met after a word ends the word and is returned by
the next call as a lexeme of its own. -/
theorem lexeme_shape (l : Lispexer) :
    ((lispexer_next l).ds = [] ∨ (lispexer_next l).ds.head? = some '\"' ∨
     (lispexer_next l).ds = ['('] ∨ (lispexer_next l).ds = [')'] ∨
     ∀ c ∈ (lispexer_next l).ds,
       c ≠ ' ' ∧ c ≠ '\r' ∧ c ≠ '\n' ∧ c ≠ '(' ∧ c ≠ ')' ∧ c ≠ '\"') ∧
    (∀ (p : Char) (rest : List Char), (p = '(' ∨ p = ')') →
      l.contents.drop l.head = p :: rest → (lispexer_next l).ds = [p]) ∧
    (∀ (u rest : List Char) (p : Char), (∀ c ∈ u, is_word_char c = true) → u ≠ [] →
      (p = '(' ∨ p = ')') → l.contents.drop l.head = u ++ p :: rest →
      (lispexer_next l).ds = u ∧ (lispexer_next (lispexer_next l)).ds = [p]) := by
  refine ⟨?_, ?_, ?_⟩
  · have h := lispexer_scan_shape (l.contents.drop l.head)
      { l with ds := [], old_head := l.head, old_pos_idx := l.pos_idx,
               old_pos_line := l.pos_line } false false
      (fun _ => ⟨rfl, by simp⟩) (by simp)
    unfold lispexer_next
    rcases h with h | h | h | h
    · exact Or.inr (Or.inl h)
    · exact Or.inr (Or.inr (Or.inl h))
    · exact Or.inr (Or.inr (Or.inr (Or.inl h)))
    · refine Or.inr (Or.inr (Or.inr (Or.inr ?_)))
      intro c hc
      obtain ⟨h1, h2, h3, h4, h5, h6⟩ := (is_word_char_iff c).1 (h c hc)
      exact ⟨h3, h4, h1, h5, h6, h2⟩
  · intro p rest hp hdrop
    rw [lispexer_next_paren l rest p hp hdrop]
  · intro u rest p hu hne hp hdrop
    have h1 := lispexer_next_word_paren l u rest p hu hne hp hdrop
    rw [h1]
    refine ⟨rfl, ?_⟩
    rw [lispexer_next_paren _ rest p hp (drop_head_add l.contents l.head u.length u _ hdrop rfl)]

/-- C11, witness: in the text `ab (c`, after the lexeme `ab`, the next call
returns the lexeme `(` alone, and the call after it the word `c`. -/
theorem lexeme_shape_witness :
    sample_lexer.contents.drop sample_lexer.head = ['(', 'c'] ∧
    (lispexer_next sample_lexer).ds = ['('] ∧
    (lispexer_next (lispexer_next sample_lexer)).ds = ['c'] :=
  ⟨by decide, (lexeme_shape sample_lexer).2.1 '(' ['c'] (Or.inl rfl) (by decide), by decide⟩

/-! ## Lexer: string literals -/

theorem is_string_units_of_body (body : List Char) (hb : is_string_body body = true) :
    is_string_units body = true := by
  induction body using is_string_body.induct with
  | case1 => rfl
  | case2 => simp [is_string_body] at hb
  | case3 e rest2 ih =>
    simp only [is_string_body, if_true, Bool.and_eq_true, Bool.not_eq_true', beq_eq_false_iff_ne,
      ne_eq] at hb
    simp [is_string_units, hb.1.1, ih hb.2]
  | case4 c rest1 hc ih =>
    unfold is_string_body at hb
    simp only [hc, if_false, Bool.and_eq_true, Bool.not_eq_true',
      beq_eq_false_iff_ne, ne_eq] at hb
    unfold is_string_units
    simp [hc, hb.1.1.1, hb.1.1.2, ih hb.2]

/-- Inside a string a body made of units is appended whole, and the closing
quote ends the token. -/
theorem lispexer_scan_string_units (body : List Char) (hb : is_string_units body = true) :
    ∀ (rest : List Char) (l : Lispexer),
      lispexer_scan (body ++ '\"' :: rest) l true false
        = { l with ds := l.ds ++ body ++ ['\"'], head := l.head + body.length + 1,
                   pos_idx := l.pos_idx + body.length + 1 } := by
  induction body using is_string_units.induct with
  | case1 =>
    intro rest l
    rw [List.nil_append, lispexer_scan]
    simp [Lispexer.append, Lispexer.advance]
  | case2 =>
    simp [is_string_units] at hb
  | case3 e rest2 ih =>
    intro rest l
    simp only [is_string_units, if_true, Bool.and_eq_true, Bool.not_eq_true',
      beq_eq_false_iff_ne, ne_eq] at hb
    obtain ⟨he1, hr⟩ := hb
    rw [List.cons_append, List.cons_append, lispexer_scan]
    simp only [Char.reduceEq, if_false, Bool.false_eq_true, Bool.true_and, beq_iff_eq,
      Bool.and_self, if_true]
    rw [lispexer_scan]
    simp only [he1, if_false, if_true]
    rw [ih hr]
    simp [Lispexer.append, Lispexer.advance, Nat.add_assoc, Nat.add_comm 1]
    omega
  | case4 c rest1 hc ih =>
    intro rest l
    unfold is_string_units at hb
    simp only [hc, if_false, Bool.and_eq_true, Bool.not_eq_true',
      beq_eq_false_iff_ne, ne_eq] at hb
    obtain ⟨⟨h1, h2⟩, hr⟩ := hb
    rw [List.cons_append, lispexer_scan]
    simp only [h1, h2, hc, if_false, Bool.false_eq_true, Bool.true_and, beq_iff_eq,
      Bool.not_true, Bool.false_and]
    rw [ih hr]
    simp [Lispexer.append, Lispexer.advance, Nat.add_assoc, Nat.add_comm 1]

theorem lispexer_next_string_units (l : Lispexer) (body rest : List Char)
    (hb : is_string_units body = true)
    (hdrop : l.contents.drop l.head = '\"' :: (body ++ '\"' :: rest)) :
    lispexer_next l
      = { l with ds := '\"' :: (body ++ ['\"']), head := l.head + body.length + 2,
                 pos_idx := l.pos_idx + body.length + 2,
                 old_head := l.head, old_pos_idx := l.pos_idx,
                 old_pos_line := l.pos_line } := by
  unfold lispexer_next
  rw [hdrop, lispexer_scan]
  simp only [Char.reduceEq, if_false, Bool.false_eq_true, Bool.false_and, Bool.not_false,
    Bool.true_and, beq_self_eq_true, if_true, List.length_nil, bne_self_eq_false,
    Lispexer.append, Lispexer.advance]
  rw [lispexer_scan_string_units body hb]
  simp [Nat.add_assoc, Nat.add_comm 1]

/-- C12. For every body made of units (a character other than the quote, the
backslash and LF, or a backslash followed by a character other than LF),
lexing the buffer quote, body, quote from the start yields one lexeme, the
whole buffer with both quotes and every backslash, and consumes the whole
buffer; the next call yields the empty lexeme. -/
theorem string_literal_one_lexeme (body : List Char) (hb : is_string_units body = true) :
    (lispexer_next (lispexer_from_dstring ('\"' :: (body ++ ['\"'])))).ds
      = '\"' :: (body ++ ['\"']) ∧
    (lispexer_next (lispexer_from_dstring ('\"' :: (body ++ ['\"'])))).head
      = ('\"' :: (body ++ ['\"'])).length ∧
    (lispexer_next (lispexer_next (lispexer_from_dstring ('\"' :: (body ++ ['\"']))))).ds
      = [] := by
  have h1 := lispexer_next_string_units (lispexer_from_dstring ('\"' :: (body ++ ['\"'])))
    body [] hb (by simp [lispexer_from_dstring])
  rw [h1]
  refine ⟨rfl, by simp [lispexer_from_dstring], ?_⟩
  rw [lispexer_next_eof _ (by simp [lispexer_from_dstring])]

/-- C12, witness: a body with a space, a carriage return, both parentheses
and an escaped quote is lexed as one lexeme. -/
theorem string_literal_one_lexeme_witness :
    is_string_units [' ', '\r', '(', ')', '\\', '\"'] = true ∧
    (lispexer_next (lispexer_from_dstring
        ['\"', ' ', '\r', '(', ')', '\\', '\"', '\"'])).ds
      = ['\"', ' ', '\r', '(', ')', '\\', '\"', '\"'] ∧
    (lispexer_next (lispexer_next (lispexer_from_dstring
        ['\"', ' ', '\r', '(', ')', '\\', '\"', '\"']))).ds = [] :=
  ⟨by decide,
    (string_literal_one_lexeme [' ', '\r', '(', ')', '\\', '\"'] (by decide)).1,
    (string_literal_one_lexeme [' ', '\r', '(', ')', '\\', '\"'] (by decide)).2.2⟩

/-! ## Lexer: line counter -/

/-- The scanning loop consumes a prefix of the unread characters and adds to
`pos_line` the number of newlines of that prefix. -/
theorem lispexer_scan_lines (rest : List Char) (l : Lispexer) (in_string escaping : Bool) :
    ∃ k, (lispexer_scan rest l in_string escaping).head = l.head + k ∧ k ≤ rest.length ∧
      (lispexer_scan rest l in_string escaping).pos_line
        = l.pos_line + (rest.take k).count '\n' := by
  induction rest, l, in_string, escaping using lispexer_scan.induct
  all_goals (unfold lispexer_scan; try simp only [*, if_true, if_false])
  all_goals first
    | (rename_i ih
       obtain ⟨k, h1, h2, h3⟩ := ih
       refine ⟨k + 1, ?_, ?_, ?_⟩
       · simp_all [Lispexer.append, Lispexer.advance]; omega
       · simp_all
       · simp_all [Lispexer.append, Lispexer.advance, List.take_succ_cons, List.count_cons]
         try omega)
    | (refine ⟨0, ?_⟩; simp; done)
    | (refine ⟨1, ?_⟩; simp_all [Lispexer.append, Lispexer.advance, List.count_cons])


/-- The relation between the cursor and the line counter: `head` is inside
the buffer and `pos_line` is the number of newlines before `head`. -/
theorem lispexer_next_lines (l : Lispexer) (h : l.head ≤ l.contents.length)
    (hl : l.pos_line = (l.contents.take l.head).count '\n') :
    (lispexer_next l).head ≤ (lispexer_next l).contents.length ∧
    (lispexer_next l).pos_line
      = ((lispexer_next l).contents.take (lispexer_next l).head).count '\n' := by
  obtain ⟨k, h1, h2, h3⟩ := lispexer_scan_lines (l.contents.drop l.head)
    { l with ds := [], old_head := l.head, old_pos_idx := l.pos_idx,
             old_pos_line := l.pos_line } false false
  have hc := lispexer_next_contents l
  unfold lispexer_next at hc ⊢
  simp only [List.length_drop] at h2
  rw [hc, h1, h3]
  refine ⟨by simp only; omega, ?_⟩
  simp only
  rw [List.take_add, List.count_append, hl]

theorem lispexer_next_iterate_lines (contents : List Char) (n : Nat) :
    ((lispexer_next^[n]) (lispexer_from_dstring contents)).head
        ≤ ((lispexer_next^[n]) (lispexer_from_dstring contents)).contents.length ∧
    ((lispexer_next^[n]) (lispexer_from_dstring contents)).pos_line
      = (((lispexer_next^[n]) (lispexer_from_dstring contents)).contents.take
          ((lispexer_next^[n]) (lispexer_from_dstring contents)).head).count '\n' := by
  induction n with
  | zero => simp [lispexer_from_dstring]
  | succ n ih =>
    rw [Function.iterate_succ_apply']
    exact lispexer_next_lines _ ih.1 ih.2

theorem lispexer_next_iterate_contents (l : Lispexer) (n : Nat) :
    ((lispexer_next^[n]) l).contents = l.contents := by
  induction n with
  | zero => rfl
  | succ n ih => rw [Function.iterate_succ_apply', lispexer_next_contents, ih]

/-- C20. After any number of calls of `lispexer_next` from the initial state,
`pos_line` is the number of newlines in `contents[0 .. head)`; and in every
state of the loop (normal, in a string, escaping) the iteration that consumes
a newline adds one to `pos_line` and sets `pos_idx` to 0. -/
theorem line_tracking (contents : List Char) (n : Nat) :
    ((lispexer_next^[n]) (lispexer_from_dstring contents)).pos_line
      = (contents.take ((lispexer_next^[n]) (lispexer_from_dstring contents)).head).count '\n' ∧
    (∀ (rest : List Char) (l : Lispexer) (in_string escaping : Bool),
      lispexer_scan ('\n' :: rest) l in_string escaping
        = lispexer_scan rest
            { l with pos_line := l.pos_line + 1, pos_idx := 0, head := l.head + 1 }
            in_string escaping) := by
  refine ⟨?_, lispexer_scan_newline⟩
  have h := (lispexer_next_iterate_lines contents n).2
  rw [lispexer_next_iterate_contents] at h
  exact h

/-! ## Driver: input made of whitespace -/

/-- Outside a string, with an empty accumulator, a run of whitespace
characters is consumed and the accumulator stays empty. -/
theorem lispexer_scan_whitespace (ws : List Char) (hws : ∀ c ∈ ws, is_whitespace c = true) :
    ∀ l : Lispexer, l.ds = [] → (lispexer_scan ws l false false).ds = [] := by
  induction ws with
  | nil => intro l hl; rw [lispexer_scan]; exact hl
  | cons c ws ih =>
    intro l hl
    have hc := hws c (List.mem_cons_self c ws)
    have hrest : ∀ d ∈ ws, is_whitespace d = true := fun d hd => hws d (List.mem_cons_of_mem c hd)
    by_cases hn : c = '\n'
    · rw [hn, lispexer_scan_newline]
      exact ih hrest _ hl
    · have hq : c ≠ '\"' := by
        rintro rfl
        simp [is_whitespace] at hc
      rw [lispexer_scan]
      simp only [hn, if_false, Bool.false_eq_true, Bool.false_and, Bool.not_false, Bool.true_and,
        beq_iff_eq, hq, hc, if_true, hl, List.length_nil, beq_self_eq_true]
      exact ih hrest _ rfl

/-- On a text made of whitespace only the first call returns the empty lexeme
and the loop of `main` ends with the empty tree. -/
theorem build_ast_whitespace (ws : List Char) (hws : ∀ c ∈ ws, is_whitespace c = true) :
    (lispexer_next (lispexer_from_dstring ws)).ds = [] ∧ build_ast ws = Outcome.ok [] := by
  have h1 : (lispexer_next (lispexer_from_dstring ws)).ds = [] := by
    unfold lispexer_next
    exact lispexer_scan_whitespace _
      (fun c hc => hws c (List.mem_of_mem_drop hc)) _ rfl
  exact ⟨h1, build_ast_of_main_loop ws _ [] (main_loop_stop _ _ _ h1)⟩

/-- C13 (the code departs from the claim). On the empty text and on the text
space, LF, CR the first call returns the empty lexeme and the tree stays
empty, as claimed; but `main` then reads `ast.items[0]` (main.c 572) although
`items` was never allocated, where `dump_ast_rec` and `free_ast` test
`items == NULL` first: the evaluation has no defined result, it does not
yield Null. -/
theorem whitespace_only_no_result :
    build_ast [] = Outcome.ok [] ∧
    (lispexer_next (lispexer_from_dstring [' ', '\n', '\r'])).ds = [] ∧
    build_ast [' ', '\n', '\r'] = Outcome.ok [] ∧
    main_result [] = none :=
  ⟨rfl, by decide, rfl, rfl⟩

/-! ## Tree builder: the insertion point -/

theorem ast_append_node_ne_nil (ast : AST) (node : AObj) : ast_append_node ast node ≠ [] := by
  induction ast, node using ast_append_node.induct
  all_goals (unfold ast_append_node; simp_all)

theorem ast_append_node_cons (x : AObj) (ast : AST) (node : AObj) (h : ast ≠ []) :
    ast_append_node (x :: ast) node = x :: ast_append_node ast node := by
  cases ast with
  | nil => exact absurd rfl h
  | cons y rest => rw [ast_append_node]

theorem ast_append_node_single_list (sub : AST) (node : AObj) :
    ast_append_node [AObj.AAst sub] node
      = if last_is_end sub then [AObj.AAst sub, node]
        else [AObj.AAst (ast_append_node sub node)] := by
  rw [ast_append_node]

theorem ast_append_node_single (x node : AObj) (hx : ∀ sub, x ≠ AObj.AAst sub) :
    ast_append_node [x] node = [x, node] := by
  cases x with
  | AAst sub => exact absurd rfl (hx sub)
  | ALToken lt => rfl
  | AEnd => rfl
  | ANull => rfl

/-- When the insertion point of a list is the list itself, the node is
appended at its end. -/
theorem ast_append_node_here (ast : AST) (node : AObj) (h : appends_here ast = true) :
    ast_append_node ast node = ast ++ [node] := by
  induction ast, node using ast_append_node.induct with
  | case1 node => rfl
  | case2 sub node hs => rw [ast_append_node_single_list, if_pos hs]; rfl
  | case3 sub node hs ih => simp [appends_here, hs] at h
  | case4 x node hx => rw [ast_append_node_single x node (fun sub hsub => hx sub hsub)]; rfl
  | case5 x y rest node ih =>
    rw [ast_append_node_cons x (y :: rest) node (by simp), ih (by simpa [appends_here] using h)]
    rfl


theorem getLast?_cons_ne_nil (x : AObj) (ast : AST) (h : ast ≠ []) :
    (x :: ast).getLast? = ast.getLast? := by
  cases ast with
  | nil => exact absurd rfl h
  | cons y rest => rw [List.getLast?_cons_cons]

theorem last_is_end_cons (x : AObj) (ast : AST) (h : ast ≠ []) :
    last_is_end (x :: ast) = last_is_end ast := by
  simp only [last_is_end, getLast?_cons_ne_nil x ast h]

theorem appends_here_cons (x : AObj) (ast : AST) (h : ast ≠ []) :
    appends_here (x :: ast) = appends_here ast := by
  simp only [appends_here, getLast?_cons_ne_nil x ast h]

/-- After a list node has been inserted the last item of the list is a list
node, not an end marker. -/
theorem last_is_end_append_list (ast sub : AST) :
    last_is_end (ast_append_node ast (AObj.AAst sub)) = false := by
  generalize hn : AObj.AAst sub = node
  induction ast, node using ast_append_node.induct generalizing sub with
  | case1 node => subst hn; rfl
  | case2 s node hs => subst hn; rw [ast_append_node_single_list, if_pos hs]; rfl
  | case3 s node hs ih => rw [ast_append_node_single_list, if_neg hs]; rfl
  | case4 x node hx =>
    subst hn
    rw [ast_append_node_single x _ (fun s hs => hx s hs)]; rfl
  | case5 x y rest node ih =>
    rw [ast_append_node_cons x (y :: rest) node (by simp),
      last_is_end_cons x _ (ast_append_node_ne_nil _ _)]
    exact ih sub hn

/-- Inserting a list node and then a node that lands at the end of that list
is inserting the longer list node. -/
theorem ast_append_node_into_new (ast sub : AST) (t : AObj)
    (h1 : last_is_end sub = false) (h2 : appends_here sub = true) :
    ast_append_node (ast_append_node ast (AObj.AAst sub)) t
      = ast_append_node ast (AObj.AAst (sub ++ [t])) := by
  have hkey : ast_append_node [AObj.AAst sub] t = [AObj.AAst (sub ++ [t])] := by
    rw [ast_append_node_single_list, h1, ast_append_node_here sub t h2]
    rfl
  generalize hn : AObj.AAst sub = node
  induction ast, node using ast_append_node.induct with
  | case1 node => subst hn; exact hkey
  | case2 s node hs =>
    subst hn
    rw [ast_append_node_single_list, if_pos hs, ast_append_node_single_list, if_pos hs,
      ast_append_node_cons _ _ _ (by simp), hkey]
  | case3 s node hs ih =>
    have hl : last_is_end (ast_append_node s node) = false := by
      subst hn; exact last_is_end_append_list s sub
    rw [ast_append_node_single_list s, if_neg hs, ast_append_node_single_list, hl,
      ast_append_node_single_list s, if_neg hs, ih hn]
    rfl
  | case4 x node hx =>
    subst hn
    rw [ast_append_node_single x _ (fun s hs => hx s hs),
      ast_append_node_single x _ (fun s hs => hx s hs),
      ast_append_node_cons _ _ _ (by simp), hkey]
  | case5 x y rest node ih =>
    rw [ast_append_node_cons x (y :: rest) _ (by simp),
      ast_append_node_cons x _ t (ast_append_node_ne_nil _ _), ih hn,
      ast_append_node_cons x (y :: rest) _ (by simp)]


/-- A list of closed nodes does not end in an end marker and is its own
insertion point. -/
theorem closed_nodes_here (ast : AST) (h : ∀ o ∈ ast, is_closed_node o = true) :
    last_is_end ast = false ∧ appends_here ast = true := by
  cases hl : ast.getLast? with
  | none => simp [last_is_end, appends_here, hl]
  | some o =>
    have ho := h o (List.mem_of_getLast?_eq_some hl)
    cases o with
    | AAst sub => simpa [last_is_end, appends_here, hl, is_closed_node] using ho
    | ALToken lt => simp [last_is_end, appends_here, hl]
    | AEnd => simp [is_closed_node] at ho
    | ANull => simp [is_closed_node] at ho

theorem foldl_append_node_into_new (ts : AST) (hts : ∀ o ∈ ts, is_closed_node o = true) :
    ∀ (ast sub : AST), (∀ o ∈ sub, is_closed_node o = true) →
      ts.foldl ast_append_node (ast_append_node ast (AObj.AAst sub))
        = ast_append_node ast (AObj.AAst (sub ++ ts)) := by
  induction ts with
  | nil => intro ast sub _; simp
  | cons t ts ih =>
    intro ast sub hsub
    obtain ⟨h1, h2⟩ := closed_nodes_here sub hsub
    rw [List.foldl_cons, ast_append_node_into_new ast sub t h1 h2,
      ih (fun o ho => hts o (List.mem_cons_of_mem t ho)) ast (sub ++ [t])]
    · simp
    · intro o ho
      simp only [List.mem_append, List.mem_singleton] at ho
      rcases ho with ho | rfl
      · exact hsub o ho
      · exact hts _ (List.mem_cons_self _ ts)

theorem foldl_append_node_here (ts : AST) (hts : ∀ o ∈ ts, is_closed_node o = true) :
    ∀ ast : AST, (∀ o ∈ ast, is_closed_node o = true) →
      ts.foldl ast_append_node ast = ast ++ ts := by
  induction ts with
  | nil => intro ast _; simp
  | cons t ts ih =>
    intro ast hast
    rw [List.foldl_cons, ast_append_node_here ast t (closed_nodes_here ast hast).2,
      ih (fun o ho => hts o (List.mem_cons_of_mem t ho)) (ast ++ [t])]
    · simp
    · intro o ho
      simp only [List.mem_append, List.mem_singleton] at ho
      rcases ho with ho | rfl
      · exact hast o ho
      · exact hts _ (List.mem_cons_self _ ts)

/-! ## Tree builder: the reference parse -/

theorem form_tree_closed (f : Form) : is_closed_node (Form.tree f) = true := by
  cases f with
  | atom lt => simp [Form.tree, is_closed_node]
  | list ol oi items cl ci => simp [Form.tree, is_closed_node, last_is_end]

theorem form_trees_closed (fs : List Form) : ∀ o ∈ Form.trees fs, is_closed_node o = true := by
  induction fs with
  | nil => intro o ho; simp [Form.trees] at ho
  | cons f fs ih =>
    intro o ho
    simp only [Form.trees, List.mem_cons] at ho
    rcases ho with rfl | ho
    · exact form_tree_closed f
    · exact ih o ho

theorem ast_append_ltoken_leaf (ast : AST) (lt : LToken) (h : is_leaf_token lt = true) :
    ast_append_ltoken ast lt = ast_append_node ast (AObj.ALToken lt) := by
  obtain ⟨tok, line, idx⟩ := lt
  cases tok <;> simp [is_leaf_token] at h <;> rfl

/-- Appending the tokens of a well-formed form inserts the tree of the form
at the insertion point; appending the tokens of a sequence of forms inserts
their trees one after the other. -/
theorem append_tokens_form (f : Form) :
    Form.wf f = true → ∀ ast : AST,
      append_tokens ast (Form.tokens f) = ast_append_node ast (Form.tree f) := by
  apply Form.tokens.induct
    (fun f => Form.wf f = true → ∀ ast : AST,
      append_tokens ast (Form.tokens f) = ast_append_node ast (Form.tree f))
    (fun fs => Form.wf_all fs = true → ∀ ast : AST,
      append_tokens ast (Form.tokens_all fs) = (Form.trees fs).foldl ast_append_node ast)
  · intro lt hwf ast
    simp only [Form.wf] at hwf
    simp only [Form.tokens, Form.tree, append_tokens, List.foldl_cons, List.foldl_nil]
    exact ast_append_ltoken_leaf ast lt hwf
  · intro ol oi items cl ci ih hwf ast
    simp only [Form.wf] at hwf
    simp only [Form.tokens, Form.tree]
    rw [append_tokens_cons, append_tokens_append, ih hwf]
    show ast_append_node
        ((Form.trees items).foldl ast_append_node (ast_append_node ast (AObj.AAst []))) AObj.AEnd
      = _
    rw [foldl_append_node_into_new _ (form_trees_closed items) ast [] (by simp),
      List.nil_append,
      ast_append_node_into_new ast _ AObj.AEnd
        (closed_nodes_here _ (form_trees_closed items)).1
        (closed_nodes_here _ (form_trees_closed items)).2]
  · intro _ ast
    rfl
  · intro f rest ihf ihrest hwf ast
    simp only [Form.wf_all, Bool.and_eq_true] at hwf
    simp only [Form.tokens_all, Form.trees, List.foldl_cons]
    rw [append_tokens_append, ihf hwf.1, ihrest hwf.2]

theorem append_tokens_forms (fs : List Form) (hwf : Form.wf_all fs = true) (ast : AST) :
    append_tokens ast (Form.tokens_all fs) = (Form.trees fs).foldl ast_append_node ast := by
  induction fs generalizing ast with
  | nil => rfl
  | cons f rest ih =>
    simp only [Form.wf_all, Bool.and_eq_true] at hwf
    simp only [Form.tokens_all, Form.trees, List.foldl_cons]
    rw [append_tokens_append, append_tokens_form f hwf.1, ih hwf.2]

/-- C14. For every sequence of forms whose single-token forms are Int, Ident
or Str tokens, appending their tokens one by one with `ast_append_ltoken` to
the empty root yields the root whose children are the trees of the forms in
the reference parse, each leaf holding its token. -/
theorem builder_equals_reference_parse (fs : List Form) (hwf : Form.wf_all fs = true) :
    append_tokens [] (Form.tokens_all fs) = Form.trees fs := by
  rw [append_tokens_forms fs hwf [],
    foldl_append_node_here _ (form_trees_closed fs) [] (by simp)]
  rfl

/-- C14, witness: the forms `7` and `(a () "s")`. -/
theorem builder_equals_reference_parse_witness :
    Form.tokens_all
        [Form.atom { tok := Token.TOKEN_INT 7, line := 0, idx := 2 },
         Form.list 0 3
           [Form.atom { tok := Token.TOKEN_IDENT ['a'], line := 0, idx := 5 },
            Form.list 0 6 [] 0 7,
            Form.atom { tok := Token.TOKEN_STRING ['s'], line := 0, idx := 11 }] 0 12]
      = [{ tok := Token.TOKEN_INT 7, line := 0, idx := 2 }, oparen_token 0 3,
         { tok := Token.TOKEN_IDENT ['a'], line := 0, idx := 5 }, oparen_token 0 6,
         cparen_token 0 7, { tok := Token.TOKEN_STRING ['s'], line := 0, idx := 11 },
         cparen_token 0 12] ∧
    append_tokens []
        [{ tok := Token.TOKEN_INT 7, line := 0, idx := 2 }, oparen_token 0 3,
         { tok := Token.TOKEN_IDENT ['a'], line := 0, idx := 5 }, oparen_token 0 6,
         cparen_token 0 7, { tok := Token.TOKEN_STRING ['s'], line := 0, idx := 11 },
         cparen_token 0 12]
      = [int_leaf 7 0 2,
         AObj.AAst [ident_leaf ['a'] 0 5, AObj.AAst [AObj.AEnd],
           AObj.ALToken { tok := Token.TOKEN_STRING ['s'], line := 0, idx := 11 }, AObj.AEnd]] :=
  ⟨by decide,
    builder_equals_reference_parse
      [Form.atom { tok := Token.TOKEN_INT 7, line := 0, idx := 2 },
       Form.list 0 3
         [Form.atom { tok := Token.TOKEN_IDENT ['a'], line := 0, idx := 5 },
          Form.list 0 6 [] 0 7,
          Form.atom { tok := Token.TOKEN_STRING ['s'], line := 0, idx := 11 }] 0 12]
      (by decide)⟩

/-! ## Tree builder: closed lists -/

theorem all_lists_end_last_append (a b : AST) :
    all_lists_end_last (a ++ b) = (all_lists_end_last a && all_lists_end_last b) := by
  induction a with
  | nil => simp [all_lists_end_last]
  | cons x a ih => simp [all_lists_end_last, ih, Bool.and_assoc]

theorem no_end_of_open (ast : AST) (h1 : end_only_last ast = true)
    (h2 : last_is_end ast = false) : no_end ast = true := by
  rcases List.eq_nil_or_concat ast with rfl | ⟨init, x, rfl⟩
  · rfl
  · simp only [List.concat_eq_append] at h1 h2 ⊢
    simp only [end_only_last, List.dropLast_concat] at h1
    have hx : is_end x = false := by
      cases x <;> simp_all [last_is_end, is_end]
    simp only [no_end] at h1
    simp [no_end, List.all_append, h1, hx]

theorem end_only_last_cons (x : AObj) (ast : AST) (h : ast ≠ []) :
    end_only_last (x :: ast) = (!is_end x && end_only_last ast) := by
  cases ast with
  | nil => exact absurd rfl h
  | cons y rest => simp [end_only_last, no_end]

/-- A node that `ast_append_ltoken` stores: a leaf, an empty list or an end
marker. -/
theorem ast_append_node_end_last (ast : AST) (node : AObj)
    (hnode : lists_end_last node = true) :
    all_lists_end_last ast = true →
      all_lists_end_last (ast_append_node ast node) = true ∧
      (no_end ast = true → end_only_last (ast_append_node ast node) = true) := by
  induction ast, node using ast_append_node.induct with
  | case1 node =>
    intro _
    simp [ast_append_node, all_lists_end_last, hnode, end_only_last, no_end]
  | case2 sub node hs =>
    intro h
    rw [ast_append_node_single_list, if_pos hs]
    simp only [all_lists_end_last, Bool.and_true] at h
    simp [all_lists_end_last, h, hnode, end_only_last, no_end, is_end]
  | case3 sub node hs ih =>
    intro h
    rw [ast_append_node_single_list, if_neg hs]
    simp only [all_lists_end_last, lists_end_last, Bool.and_true, Bool.and_eq_true] at h
    obtain ⟨i1, i2⟩ := ih hnode h.2
    have hno := no_end_of_open sub h.1 (by simpa using hs)
    refine ⟨?_, fun _ => rfl⟩
    simp only [all_lists_end_last, lists_end_last, Bool.and_true, Bool.and_eq_true]
    exact ⟨i2 hno, i1⟩
  | case4 x node hx =>
    intro h
    rw [ast_append_node_single x node (fun s hs => hx s hs)]
    simp only [all_lists_end_last, Bool.and_true] at h
    simp [all_lists_end_last, h, hnode, end_only_last, no_end]
  | case5 x y rest node ih =>
    intro h
    rw [ast_append_node_cons x (y :: rest) node (by simp)]
    simp only [all_lists_end_last, Bool.and_eq_true] at h
    have h' : all_lists_end_last (y :: rest) = true := by
      simp only [all_lists_end_last, Bool.and_eq_true]; exact h.2
    obtain ⟨i1, i2⟩ := ih hnode h'
    refine ⟨by simp only [all_lists_end_last, Bool.and_eq_true]; exact ⟨h.1, i1⟩, ?_⟩
    intro hno
    rw [end_only_last_cons x _ (ast_append_node_ne_nil _ _)]
    simp only [no_end, List.all_cons, Bool.and_eq_true] at hno
    simp only [Bool.and_eq_true]
    exact ⟨hno.1, i2 (by simp only [no_end, List.all_cons, Bool.and_eq_true]; exact hno.2)⟩

theorem ast_append_ltoken_end_last (ast : AST) (lt : LToken)
    (h : all_lists_end_last ast = true) :
    all_lists_end_last (ast_append_ltoken ast lt) = true := by
  obtain ⟨tok, line, idx⟩ := lt
  cases tok with
  | TOKEN_INT v =>
    exact (ast_append_node_end_last ast (AObj.ALToken ⟨Token.TOKEN_INT v, line, idx⟩) rfl h).1
  | TOKEN_IDENT s =>
    exact (ast_append_node_end_last ast (AObj.ALToken ⟨Token.TOKEN_IDENT s, line, idx⟩) rfl h).1
  | TOKEN_STRING s =>
    exact (ast_append_node_end_last ast (AObj.ALToken ⟨Token.TOKEN_STRING s, line, idx⟩) rfl h).1
  | TOKEN_SYNTAX k =>
    cases k with
    | SYNTAX_OPAREN => exact (ast_append_node_end_last ast (AObj.AAst []) rfl h).1
    | SYNTAX_CPAREN => exact (ast_append_node_end_last ast AObj.AEnd rfl h).1
  | TOKEN_MALFORMED => exact h

theorem append_tokens_end_last (ts : List LToken) :
    ∀ ast : AST, all_lists_end_last ast = true →
      all_lists_end_last (append_tokens ast ts) = true := by
  induction ts with
  | nil => intro ast h; exact h
  | cons lt ts ih =>
    intro ast h
    rw [append_tokens_cons]
    exact ih _ (ast_append_ltoken_end_last ast lt h)


theorem node_at_cons_succ (x : AObj) (ast : AST) (i : Nat) (path : List Nat) :
    node_at (x :: ast) ((i + 1) :: path) = node_at ast (i :: path) := by
  cases path with
  | nil => simp [node_at]
  | cons j path => simp [node_at]

theorem node_at_cons_zero (x : AObj) (ast ast2 : AST) (path : List Nat) :
    node_at (x :: ast) (0 :: path) = node_at (x :: ast2) (0 :: path) := by
  cases path with
  | nil => simp [node_at]
  | cons j path => simp [node_at]

theorem node_at_append (ast more : AST) (path : List Nat) (o : AObj)
    (h : node_at ast path = some o) : node_at (ast ++ more) path = some o := by
  induction ast generalizing path with
  | nil =>
    cases path with
    | nil => simp [node_at] at h
    | cons i path => cases path <;> simp [node_at] at h
  | cons x ast ih =>
    cases path with
    | nil => simp [node_at] at h
    | cons i path =>
      cases i with
      | zero =>
        rw [List.cons_append, node_at_cons_zero x (ast ++ more) ast]
        exact h
      | succ i =>
        rw [List.cons_append, node_at_cons_succ]
        rw [node_at_cons_succ] at h
        exact ih _ h

/-- A closed list that is a node of the tree is still the same node after a
node has been inserted in the tree. -/
theorem ast_append_node_keeps_closed (ast : AST) (node : AObj) :
    ∀ (path : List Nat) (sub : AST), node_at ast path = some (AObj.AAst sub) →
      last_is_end sub = true →
      node_at (ast_append_node ast node) path = some (AObj.AAst sub) := by
  induction ast, node using ast_append_node.induct with
  | case1 node =>
    intro path sub h _
    cases path with
    | nil => simp [node_at] at h
    | cons i path => cases path <;> simp [node_at] at h
  | case2 s node hs =>
    intro path sub h _
    rw [ast_append_node_single_list, if_pos hs]
    exact node_at_append [AObj.AAst s] [node] path _ h
  | case3 s node hs ih =>
    intro path sub h hsub
    rw [ast_append_node_single_list, if_neg hs]
    cases path with
    | nil => simp [node_at] at h
    | cons i path =>
      cases i with
      | succ i => cases path <;> simp [node_at] at h
      | zero =>
        cases path with
        | nil =>
          simp only [node_at, List.getElem?_cons_zero, Option.some.injEq, AObj.AAst.injEq] at h
          rw [h] at hs
          exact absurd hsub hs
        | cons j path =>
          simp only [node_at, List.getElem?_cons_zero] at h ⊢
          exact ih _ _ h hsub
  | case4 x node hx =>
    intro path sub h _
    rw [ast_append_node_single x node (fun s hs => hx s hs)]
    exact node_at_append [x] [node] path _ h
  | case5 x y rest node ih =>
    intro path sub h hsub
    rw [ast_append_node_cons x (y :: rest) node (by simp)]
    cases path with
    | nil => simp [node_at] at h
    | cons i path =>
      cases i with
      | zero =>
        rw [node_at_cons_zero x _ (y :: rest)]
        exact h
      | succ i =>
        rw [node_at_cons_succ] at h ⊢
        exact ih _ _ h hsub

theorem ast_append_ltoken_keeps_closed (ast : AST) (lt : LToken) (path : List Nat) (sub : AST)
    (h : node_at ast path = some (AObj.AAst sub)) (hsub : last_is_end sub = true) :
    node_at (ast_append_ltoken ast lt) path = some (AObj.AAst sub) := by
  obtain ⟨tok, line, idx⟩ := lt
  cases tok with
  | TOKEN_INT v => exact ast_append_node_keeps_closed ast _ path sub h hsub
  | TOKEN_IDENT s => exact ast_append_node_keeps_closed ast _ path sub h hsub
  | TOKEN_STRING s => exact ast_append_node_keeps_closed ast _ path sub h hsub
  | TOKEN_SYNTAX k =>
    cases k with
    | SYNTAX_OPAREN => exact ast_append_node_keeps_closed ast _ path sub h hsub
    | SYNTAX_CPAREN => exact ast_append_node_keeps_closed ast _ path sub h hsub
  | TOKEN_MALFORMED => exact h

theorem append_tokens_keeps_closed (ts : List LToken) :
    ∀ (ast : AST) (path : List Nat) (sub : AST), node_at ast path = some (AObj.AAst sub) →
      last_is_end sub = true →
      node_at (append_tokens ast ts) path = some (AObj.AAst sub) := by
  induction ts with
  | nil => intro ast path sub h _; exact h
  | cons lt ts ih =>
    intro ast path sub h hsub
    rw [append_tokens_cons]
    exact ih _ path sub (ast_append_ltoken_keeps_closed ast lt path sub h hsub) hsub

/-- C19 (the claim as stated fails). The root is never closed: a `)` met at
the top level appends an end marker to the root, and the next token is
appended to the root after that end marker. -/
theorem root_receives_after_end :
    append_tokens [] [cparen_token 0 1] = [AObj.AEnd] ∧
    last_is_end [AObj.AEnd] = true ∧
    append_tokens [] [cparen_token 0 1, { tok := Token.TOKEN_IDENT ['a'], line := 0, idx := 2 }]
      = [AObj.AEnd, ident_leaf ['a'] 0 2] ∧
    end_only_last [AObj.AEnd, ident_leaf ['a'] 0 2] = false :=
  ⟨rfl, rfl, rfl, rfl⟩

/-- C19, as amended. For every sequence of tokens, balanced or not, appended
one by one to the empty tree, every list nested in the tree (the root left
out) holds an end marker at most once and only as its last child; and in
every tree, once a nested list has an end marker as its last child, no later
append changes that list. -/
theorem nested_closed_lists_stay_closed :
    (∀ ts : List LToken, all_lists_end_last (append_tokens [] ts) = true) ∧
    (∀ (ast : AST) (ts : List LToken) (path : List Nat) (sub : AST),
      node_at ast path = some (AObj.AAst sub) → last_is_end sub = true →
      node_at (append_tokens ast ts) path = some (AObj.AAst sub)) :=
  ⟨fun ts => append_tokens_end_last ts [] rfl,
    fun ast ts path sub h hsub => append_tokens_keeps_closed ts ast path sub h hsub⟩

/-- C19 as amended, witness: in the tree of `(() ` the inner list is closed;
after the tokens `b`, `(` and `)` it is still the first child of the outer
list, unchanged. -/
theorem nested_closed_lists_stay_closed_witness :
    node_at [AObj.AAst [AObj.AAst [AObj.AEnd]]] [0, 0] = some (AObj.AAst [AObj.AEnd]) ∧
    append_tokens [AObj.AAst [AObj.AAst [AObj.AEnd]]]
        [{ tok := Token.TOKEN_IDENT ['b'], line := 0, idx := 5 }, oparen_token 0 6,
         cparen_token 0 7]
      = [AObj.AAst [AObj.AAst [AObj.AEnd], ident_leaf ['b'] 0 5, AObj.AAst [AObj.AEnd]]] ∧
    node_at
        (append_tokens [AObj.AAst [AObj.AAst [AObj.AEnd]]]
          [{ tok := Token.TOKEN_IDENT ['b'], line := 0, idx := 5 }, oparen_token 0 6,
           cparen_token 0 7])
        [0, 0] = some (AObj.AAst [AObj.AEnd]) :=
  ⟨rfl, rfl,
    nested_closed_lists_stay_closed.2 [AObj.AAst [AObj.AAst [AObj.AEnd]]]
      [{ tok := Token.TOKEN_IDENT ['b'], line := 0, idx := 5 }, oparen_token 0 6,
       cparen_token 0 7] [0, 0] [AObj.AEnd] rfl rfl⟩

/-! ## Lexer: no character lost or duplicated -/

theorem without_whitespace_append (a b : List Char) :
    without_whitespace (a ++ b) = without_whitespace a ++ without_whitespace b := by
  simp [without_whitespace]

theorem without_whitespace_single (c : Char) :
    without_whitespace [c] = if is_whitespace c = true then [] else [c] := by
  by_cases h : is_whitespace c = true <;> simp [without_whitespace, h]

theorem without_whitespace_cons (c : Char) (t : List Char) :
    without_whitespace (c :: t)
      = (if is_whitespace c = true then [] else [c]) ++ without_whitespace t := by
  by_cases h : is_whitespace c = true <;> simp [without_whitespace, h]

theorem without_whitespace_nil : without_whitespace [] = [] :=
  rfl

/-- The scanning loop consumes a prefix of the unread characters and appends
to the accumulator the characters of that prefix, whitespace apart. -/
theorem lispexer_scan_chars (rest : List Char) (l : Lispexer) (in_string escaping : Bool) :
    ∃ k, (lispexer_scan rest l in_string escaping).head = l.head + k ∧ k ≤ rest.length ∧
      without_whitespace (lispexer_scan rest l in_string escaping).ds
        = without_whitespace l.ds ++ without_whitespace (rest.take k) := by
  induction rest, l, in_string, escaping using lispexer_scan.induct
  all_goals (unfold lispexer_scan; try simp only [*, if_true, if_false])
  all_goals first
    | (rename_i ih
       obtain ⟨k, h1, h2, h3⟩ := ih
       refine ⟨k + 1, ?_, ?_, ?_⟩
       · simp_all [Lispexer.append, Lispexer.advance]; omega
       · simp_all
       · simp_all [Lispexer.append, Lispexer.advance, List.take_succ_cons,
           without_whitespace_append, without_whitespace_cons, without_whitespace_nil,
           is_whitespace])
    | (refine ⟨0, ?_⟩; simp [without_whitespace_nil]; done)
    | (refine ⟨1, ?_⟩
       simp_all [Lispexer.append, Lispexer.advance, without_whitespace_append,
         without_whitespace_cons, without_whitespace_nil, is_whitespace])

/-- One call of `lispexer_next` consumes a prefix of the unread characters and
leaves in the accumulator the characters of that prefix, whitespace apart. -/
theorem lispexer_next_chars (l : Lispexer) :
    ∃ k, (lispexer_next l).head = l.head + k ∧
      without_whitespace (lispexer_next l).ds
        = without_whitespace ((l.contents.drop l.head).take k) := by
  obtain ⟨k, h1, _, h3⟩ := lispexer_scan_chars (l.contents.drop l.head)
    { l with ds := [], old_head := l.head, old_pos_idx := l.pos_idx,
             old_pos_line := l.pos_line } false false
  exact ⟨k, h1, by simpa [without_whitespace_nil] using h3⟩

/-- The lexemes collected until the first empty one hold, whitespace apart,
the unread characters of the buffer in order; the calls allowed suffice when
they outnumber the unread characters. -/
theorem lex_all_chars (fuel : Nat) :
    ∀ l : Lispexer, l.head ≤ l.count → l.count - l.head < fuel →
      ∃ ls, lex_all fuel l = some ls ∧ (∀ d ∈ ls, d ≠ []) ∧
        without_whitespace ls.flatten = without_whitespace (l.contents.drop l.head) := by
  induction fuel with
  | zero => intro l _ hk; omega
  | succ fuel ih =>
    intro l h hk
    obtain ⟨_, h2, h3, h4⟩ := lispexer_next_head l h
    obtain ⟨k, hk1, hk2⟩ := lispexer_next_chars l
    have hc := lispexer_next_count l
    have hcont := lispexer_next_contents l
    unfold Lispexer.count at h h2 h4 hk hc
    by_cases hds : (lispexer_next l).ds.length = 0
    · refine ⟨[], ?_, by simp, ?_⟩
      · rw [lex_all]; simp [hds]
      · have hhead := h4 hds
        have hnil : (lispexer_next l).ds = [] := List.length_eq_zero.1 hds
        rw [hnil] at hk2
        rw [List.flatten_nil, hk2, List.take_of_length_le]
        rw [List.length_drop]; omega
    · have hlt := h3 hds
      obtain ⟨ls, hls, hne, hww⟩ := ih (lispexer_next l)
        (by unfold Lispexer.count; omega) (by unfold Lispexer.count; omega)
      refine ⟨(lispexer_next l).ds :: ls, ?_, ?_, ?_⟩
      · rw [lex_all]; simp [hds, hls]
      · intro d hd
        rcases List.mem_cons.1 hd with rfl | hd
        · exact fun h0 => hds (by simp [h0])
        · exact hne d hd
      · rw [List.flatten_cons, without_whitespace_append, hww, hk2, hcont, hk1,
          ← without_whitespace_append, ← List.drop_drop, List.take_append_drop]

/-- C21. For every buffer, calling `lispexer_next` from the start until the
first empty lexeme yields a list of non-empty lexemes whose concatenation, in
order, with space, CR and LF filtered out, is the buffer with space, CR and
LF filtered out: no other character is lost or emitted twice.  In `ab(c` the
parenthesis that ends `ab` is emitted once, by the next call, and so is the
quote that ends `a` in `a"b"`. -/
theorem no_character_lost (contents : List Char) :
    (∃ ls, lex_all (contents.length + 1) (lispexer_from_dstring contents) = some ls ∧
      (∀ d ∈ ls, d ≠ []) ∧
      without_whitespace ls.flatten = without_whitespace contents) ∧
    lex_all 5 (lispexer_from_dstring ['a', 'b', '(', 'c'])
      = some [['a', 'b'], ['('], ['c']] ∧
    lex_all 5 (lispexer_from_dstring ['a', '\"', 'b', '\"'])
      = some [['a'], ['\"', 'b', '\"']] := by
  refine ⟨?_, by decide, by decide⟩
  have h := lex_all_chars (contents.length + 1) (lispexer_from_dstring contents)
    (by simp [lispexer_from_dstring]) (by simp [lispexer_from_dstring, Lispexer.count])
  simpa [lispexer_from_dstring] using h

end CLispexer
